import Mathlib

/-!
Verification of the rust-bert translation pipeline and of its decoding engine.

The repository slice under `src/` contains the translation pipeline glue
(`TranslationConfig`, `TranslationModel`); those are embedded directly from the
source.  The decoding engine itself (beam search, penalty processing, sampling)
is declared and exercised by this repository but its code is not part of the
provided sources, so it is modelled from the specification: every such
definition carries a doc comment starting with `Modelled from the spec:`.

Scores are rational numbers; `WithBot ℚ` plays the role of log-probabilities
extended with negative infinity (the hard-ban value).
-/

/-! ## Generic list machinery -/

/-- First element of the list attaining the maximal key (so that on a list of
tokens in ascending id order, ties are broken by the lower token id). -/
def pickBest {α β : Type} [LinearOrder β] (key : α → β) : List α → Option α
  | [] => none
  | a :: l =>
    match pickBest key l with
    | none => some a
    | some b => if key a < key b then some b else some a

/-- The top `n` elements by key, best first, extracted by repeated selection of
the earliest maximal element. -/
def topN {α β : Type} [DecidableEq α] [LinearOrder β] (key : α → β) : ℕ → List α → List α
  | 0, _ => []
  | n + 1, l =>
    match pickBest key l with
    | none => []
    | some a => a :: topN key n (l.erase a)

/-- Concatenation of the images of `f` over a list. -/
def listJoinMap {α β : Type} (f : α → List β) : List α → List β
  | [] => []
  | a :: l => f a ++ listJoinMap f l

/-- Map with the position index, starting at `j`. -/
def mapWithIndex {α β : Type} (f : ℕ → α → β) : ℕ → List α → List β
  | _, [] => []
  | j, a :: l => f j a :: mapWithIndex f (j + 1) l

theorem pickBest_mem {α β : Type} [LinearOrder β] (key : α → β) :
    ∀ (l : List α) (a : α), pickBest key l = some a → a ∈ l := by
  intro l
  induction l with
  | nil => intro a h; simp [pickBest] at h
  | cons x l ih =>
    intro a h
    simp only [pickBest] at h
    cases hl : pickBest key l with
    | none => rw [hl] at h; simp at h; simp [h]
    | some b =>
      rw [hl] at h
      by_cases hc : key x < key b
      · simp [hc] at h; subst h; exact List.mem_cons_of_mem _ (ih b hl)
      · simp [hc] at h; simp [h]

theorem pickBest_isSome {α β : Type} [LinearOrder β] (key : α → β) (a : α) (l : List α) :
    ∃ b, pickBest key (a :: l) = some b := by
  simp only [pickBest]
  cases hl : pickBest key l with
  | none => exact ⟨a, rfl⟩
  | some b => by_cases hc : key a < key b <;> simp [hc]

theorem pickBest_le {α β : Type} [LinearOrder β] (key : α → β) :
    ∀ (l : List α) (a : α), pickBest key l = some a → ∀ b ∈ l, key b ≤ key a := by
  intro l
  induction l with
  | nil => intro a h; simp [pickBest] at h
  | cons x l ih =>
    intro a h b hb
    simp only [pickBest] at h
    cases hl : pickBest key l with
    | none =>
      rw [hl] at h; simp at h; subst h
      rcases List.mem_cons.1 hb with rfl | hbl
      · exact le_refl _
      · cases l with
        | nil => simp at hbl
        | cons y l' => rcases pickBest_isSome key y l' with ⟨c, hc⟩; rw [hc] at hl; cases hl
    | some c =>
      rw [hl] at h
      rcases List.mem_cons.1 hb with rfl | hbl
      · by_cases hcmp : key b < key c
        · simp [hcmp] at h; subst h; exact le_of_lt hcmp
        · simp [hcmp] at h; subst h; exact le_refl _
      · have hbc := ih c hl b hbl
        by_cases hcmp : key x < key c
        · simp [hcmp] at h; subst h; exact hbc
        · simp [hcmp] at h; subst h; exact le_trans hbc (le_of_not_lt hcmp)

theorem topN_subset {α β : Type} [DecidableEq α] [LinearOrder β] (key : α → β) :
    ∀ (n : ℕ) (l : List α) (a : α), a ∈ topN key n l → a ∈ l := by
  intro n
  induction n with
  | zero => intro l a h; simp [topN] at h
  | succ n ih =>
    intro l a h
    simp only [topN] at h
    cases hl : pickBest key l with
    | none => rw [hl] at h; simp at h
    | some b =>
      rw [hl] at h
      rcases List.mem_cons.1 h with rfl | h'
      · exact pickBest_mem key l a hl
      · exact (l.erase_subset b) (ih (l.erase b) a h')

theorem topN_length_le {α β : Type} [DecidableEq α] [LinearOrder β] (key : α → β) :
    ∀ (n : ℕ) (l : List α), (topN key n l).length ≤ n := by
  intro n
  induction n with
  | zero => intro l; simp [topN]
  | succ n ih =>
    intro l
    simp only [topN]
    cases pickBest key l with
    | none => simp
    | some b => simpa using ih (l.erase b)

theorem topN_single {α β : Type} [DecidableEq α] [LinearOrder β] (key : α → β) (a : α) :
    topN key 1 [a] = [a] := by
  simp [topN, pickBest]

theorem listJoinMap_mem {α β : Type} (f : α → List β) :
    ∀ (l : List α) (b : β), b ∈ listJoinMap f l → ∃ a ∈ l, b ∈ f a := by
  intro l
  induction l with
  | nil => intro b h; simp [listJoinMap] at h
  | cons x l ih =>
    intro b h
    simp only [listJoinMap] at h
    rcases List.mem_append.1 h with h' | h'
    · exact ⟨x, List.mem_cons_self x l, h'⟩
    · rcases ih b h' with ⟨a, ha, hb⟩; exact ⟨a, List.mem_cons_of_mem _ ha, hb⟩

theorem mapWithIndex_mem {α β : Type} (f : ℕ → α → β) :
    ∀ (l : List α) (j : ℕ) (b : β), b ∈ mapWithIndex f j l → ∃ i a, a ∈ l ∧ b = f i a := by
  intro l
  induction l with
  | nil => intro j b h; simp [mapWithIndex] at h
  | cons x l ih =>
    intro j b h
    simp only [mapWithIndex] at h
    rcases List.mem_cons.1 h with h' | h'
    · exact ⟨j, x, List.mem_cons_self x l, h'⟩
    · rcases ih (j + 1) b h' with ⟨i, a, ha, hb⟩
      exact ⟨i, a, List.mem_cons_of_mem _ ha, hb⟩

theorem take_mem_of_mem {α : Type} : ∀ (l : List α) (n : ℕ) (a : α), a ∈ l.take n → a ∈ l := by
  intro l
  induction l with
  | nil => intro n a h; simp at h
  | cons x l ih =>
    intro n a h
    cases n with
    | zero => simp at h
    | succ n =>
      simp only [List.take] at h
      rcases List.mem_cons.1 h with rfl | h'
      · exact List.mem_cons_self _ _
      · exact List.mem_cons_of_mem _ (ih n a h')

theorem length_filter_add_length_filter_not {α : Type} (p : α → Bool) :
    ∀ l : List α, (l.filter p).length + (l.filter (fun a => !p a)).length = l.length := by
  intro l
  induction l with
  | nil => simp
  | cons x l ih =>
    by_cases hx : p x = true
    · simp [List.filter, hx, ← ih]; omega
    · have hx' : p x = false := by simp at hx; exact hx
      simp [List.filter, hx', ← ih]; omega

/-! ## N-grams -/

/-- The contiguous subsequence of length `N` starting at position `i`. -/
def ngramAt (xs : List ℕ) (N i : ℕ) : List ℕ := (xs.drop i).take N

/-- Whether `g` occurs as a contiguous subsequence of `xs`. -/
def occursIn (xs g : List ℕ) : Bool :=
  (List.range (xs.length + 1 - g.length)).any fun i => decide (ngramAt xs g.length i = g)

/-- No contiguous subsequence of length `N` occurs twice in `xs`. -/
def NoDupNgram (N : ℕ) (xs : List ℕ) : Prop :=
  ∀ i j, i < j → j + N ≤ xs.length → ngramAt xs N i ≠ ngramAt xs N j

/-- Decidable check for a repeated `N`-gram. -/
def hasDupNgramB (N : ℕ) (xs : List ℕ) : Bool :=
  (List.range (xs.length + 1 - N)).any fun i =>
    (List.range (xs.length + 1 - N)).any fun j =>
      decide (i < j) && decide (ngramAt xs N i = ngramAt xs N j)

theorem hasDupNgramB_eq_false_iff (N : ℕ) (xs : List ℕ) :
    hasDupNgramB N xs = false ↔ NoDupNgram N xs := by
  unfold hasDupNgramB NoDupNgram
  rw [List.any_eq_false]
  constructor
  · intro h i j hij hjN heq
    have hi : i ∈ List.range (xs.length + 1 - N) := List.mem_range.2 (by omega)
    have hj : j ∈ List.range (xs.length + 1 - N) := List.mem_range.2 (by omega)
    have h2 := h i hi
    rw [Bool.not_eq_true, List.any_eq_false] at h2
    have h3 := h2 j hj
    simp [hij, heq] at h3
  · intro h i hi
    rw [Bool.not_eq_true, List.any_eq_false]
    intro j hj
    simp only [Bool.and_eq_true, decide_eq_true_eq, not_and]
    intro hij heq
    exact h i j hij (by have := List.mem_range.1 hj; omega) heq

/-- Modelled from the spec: no-repeat n-gram blocking.  Token `t` is blocked
when appending it to `tokens` would complete an n-gram of size `N` already
seen in `tokens` (`N = 0` disables the feature). -/
def bannedNgramTok (N : ℕ) (tokens : List ℕ) (t : ℕ) : Bool :=
  if N = 0 then false
  else if tokens.length + 1 < N then false
  else occursIn tokens (tokens.drop (tokens.length + 1 - N) ++ [t])

theorem ngramAt_append_of_le (xs : List ℕ) (t : ℕ) (N i : ℕ) (h : i + N ≤ xs.length) :
    ngramAt (xs ++ [t]) N i = ngramAt xs N i := by
  unfold ngramAt
  rw [List.drop_append_eq_append_drop, List.take_append_eq_append_take]
  have h1 : i - xs.length = 0 := by omega
  have h2 : N - (xs.drop i).length = 0 := by
    rw [List.length_drop]; omega
  rw [h1, h2]
  simp

theorem ngramAt_concat_last (xs : List ℕ) (t : ℕ) (N : ℕ) (h1 : 0 < N)
    (h2 : N ≤ xs.length + 1) :
    ngramAt (xs ++ [t]) N (xs.length + 1 - N) = xs.drop (xs.length + 1 - N) ++ [t] := by
  unfold ngramAt
  rw [List.drop_append_eq_append_drop, List.take_append_eq_append_take]
  have e1 : xs.length + 1 - N - xs.length = 0 := by omega
  have e2 : (xs.drop (xs.length + 1 - N)).length = N - 1 := by
    rw [List.length_drop]; omega
  rw [e1, e2]
  have e3 : N - (N - 1) = 1 := by omega
  rw [e3]
  simp only [List.drop_zero, List.take_one]
  have e4 : (xs.drop (xs.length + 1 - N)).take N = xs.drop (xs.length + 1 - N) :=
    List.take_of_length_le (by rw [e2]; omega)
  rw [e4]
  rfl

theorem NoDupNgram.append_not_banned {N : ℕ} {xs : List ℕ} {t : ℕ}
    (hb : bannedNgramTok N xs t = false) (hx : NoDupNgram N xs) (hN : 0 < N) :
    NoDupNgram N (xs ++ [t]) := by
  intro i j hij hjN heq
  rw [List.length_append, List.length_singleton] at hjN
  by_cases hjx : j + N ≤ xs.length
  · rw [ngramAt_append_of_le xs t N i (by omega), ngramAt_append_of_le xs t N j hjx] at heq
    exact hx i j hij hjx heq
  · have hNle : N ≤ xs.length + 1 := by omega
    have hj : j = xs.length + 1 - N := by omega
    have hiN : i + N ≤ xs.length := by omega
    rw [ngramAt_append_of_le xs t N i hiN] at heq
    rw [hj, ngramAt_concat_last xs t N hN hNle] at heq
    unfold bannedNgramTok at hb
    have hN0 : ¬ N = 0 := by omega
    have hlt : ¬ xs.length + 1 < N := by omega
    rw [if_neg hN0, if_neg hlt] at hb
    unfold occursIn at hb
    rw [List.any_eq_false] at hb
    have hglen : (xs.drop (xs.length + 1 - N) ++ [t]).length = N := by
      rw [List.length_append, List.length_drop, List.length_singleton]; omega
    have hi : i ∈ List.range
        (xs.length + 1 - (xs.drop (xs.length + 1 - N) ++ [t]).length) := by
      rw [hglen]; exact List.mem_range.2 (by omega)
    have h3 := hb i hi
    rw [hglen] at h3
    simp [heq] at h3

theorem NoDupNgram.drop_one {N : ℕ} {xs : List ℕ} (h : NoDupNgram N xs) :
    NoDupNgram N (xs.drop 1) := by
  intro i j hij hjN heq
  rw [List.length_drop] at hjN
  have e : ∀ k, ngramAt (xs.drop 1) N k = ngramAt xs N (k + 1) := by
    intro k
    unfold ngramAt
    rw [List.drop_drop, Nat.add_comm 1 k]
  rw [e i, e j] at heq
  exact h (i + 1) (j + 1) (by omega) (by omega) heq

theorem NoDupNgram.dropLast {N : ℕ} {xs : List ℕ} (h : NoDupNgram N xs) :
    NoDupNgram N xs.dropLast := by
  intro i j hij hjN heq
  rw [List.length_dropLast] at hjN
  have e : ∀ k, k + N ≤ xs.length - 1 → ngramAt xs.dropLast N k = ngramAt xs N k := by
    intro k hk
    unfold ngramAt
    rw [List.dropLast_eq_take, List.drop_take, List.take_take]
    congr 1
    omega
  rw [e i (by omega), e j (by omega)] at heq
  exact h i j hij (by omega) heq

/-- Remove a trailing occurrence of the token `e`. -/
def dropTrailTok (e : ℕ) (xs : List ℕ) : List ℕ :=
  if xs.getLast? = some e then xs.dropLast else xs

theorem dropTrailTok_concat_self (e : ℕ) (xs : List ℕ) :
    dropTrailTok e (xs ++ [e]) = xs := by
  simp [dropTrailTok, List.getLast?_concat, List.dropLast_concat]

theorem dropTrailTok_concat_ne (e t : ℕ) (xs : List ℕ) (h : t ≠ e) :
    dropTrailTok e (xs ++ [t]) = xs ++ [t] := by
  simp [dropTrailTok, List.getLast?_concat, h]

theorem dropTrailTok_subset (e : ℕ) (xs : List ℕ) : dropTrailTok e xs ⊆ xs := by
  unfold dropTrailTok
  by_cases h : xs.getLast? = some e
  · rw [if_pos h]; exact List.dropLast_subset xs
  · rw [if_neg h]
    exact List.Subset.refl xs

theorem dropTrailTok_drop_one (e : ℕ) (xs : List ℕ) :
    dropTrailTok e (xs.drop 1) = (dropTrailTok e xs).drop 1 := by
  cases xs with
  | nil => simp [dropTrailTok]
  | cons x l =>
    cases l with
    | nil =>
      by_cases h : x = e
      · simp [dropTrailTok, h]
      · simp [dropTrailTok, h]
    | cons y m =>
      have hlast : (x :: y :: m).getLast? = (y :: m).getLast? := List.getLast?_cons_cons
      by_cases h : (y :: m).getLast? = some e
      · simp only [List.drop_one, List.tail_cons, dropTrailTok, hlast, h, if_pos]
        rw [List.dropLast_cons₂]
        simp
      · simp only [List.drop_one, List.tail_cons, dropTrailTok, hlast, h, if_neg]
        simp

/-! ## Decoding configuration and the penalty processor -/

/-- Modelled from the spec: the immutable decoding configuration (§3), together
with the vocabulary size and the beginning- and end-of-sequence token ids, which the
spec says are supplied as part of configuration (§6).  `length_penalty` is kept
as a rational; its use as an exponent takes its integer floor, a computable
surrogate for the real exponent of the spec. -/
structure DecodingConfig where
  min_length : ℕ
  max_length : ℕ
  do_sample : Bool
  early_stopping : Bool
  num_beams : ℕ
  temperature : ℚ
  top_k : ℕ
  top_p : ℚ
  repetition_penalty : ℚ
  length_penalty : ℚ
  no_repeat_ngram_size : ℕ
  num_return_sequences : ℕ
  vocab_size : ℕ
  bos_token : ℕ
  eos_token : ℕ
deriving DecidableEq

/-- Modelled from the spec: the eager validation of a `DecodingConfig` (§3, §7).
`min_length ≥ 0`, `top_k ≥ 0` and `no_repeat_ngram_size ≥ 0` hold trivially for
naturals; well-formedness of the special token ids against the vocabulary is
included. -/
def DecodingConfig.validB (c : DecodingConfig) : Bool :=
  decide (c.min_length < c.max_length) && decide (1 ≤ c.num_beams) &&
  decide (1 ≤ c.num_return_sequences) &&
  (if c.do_sample then true else decide (c.num_return_sequences ≤ c.num_beams)) &&
  decide ((0 : ℚ) < c.temperature) && decide ((0 : ℚ) < c.top_p) &&
  decide (c.top_p ≤ (1 : ℚ)) && decide ((1 : ℚ) ≤ c.repetition_penalty) &&
  decide (c.eos_token < c.vocab_size) && decide (c.bos_token < c.vocab_size)

/-- Modelled from the spec: the pure penalty stages that keep scores finite
(§4.1 rules 1 and 2): temperature scaling first, then the repetition penalty
(divide a positive scaled score by the penalty, multiply a negative one). -/
def preBanScore (c : DecodingConfig) (tokens : List ℕ) (t : ℕ) (raw : ℚ) : ℚ :=
  let x := if c.temperature = 1 then raw else raw / c.temperature
  if c.repetition_penalty = 1 then x
  else if t ∈ tokens then
    (if x < 0 then x * c.repetition_penalty else x / c.repetition_penalty)
  else x

/-- Modelled from the spec: whether a token is hard-banned for the given
hypothesis tokens — by n-gram blocking (§4.1 rule 3) or by minimum-length
enforcement of the end-of-sequence token (§4.1 rule 4). -/
def isBannedTok (c : DecodingConfig) (tokens : List ℕ) (t : ℕ) : Bool :=
  bannedNgramTok c.no_repeat_ngram_size tokens t ||
    (decide (t = c.eos_token) && decide (tokens.length < c.min_length))

/-- Modelled from the spec: the adjusted log-probability of token `t` produced
by the `PenaltyProcessor` (§4.1); hard bans yield `⊥` (negative infinity). -/
def adjustedScore (c : DecodingConfig) (oracle : List ℕ → ℕ → ℚ) (tokens : List ℕ)
    (t : ℕ) : WithBot ℚ :=
  if isBannedTok c tokens t then ⊥
  else ((preBanScore c tokens t (oracle tokens t) : ℚ) : WithBot ℚ)

/-- Modelled from the spec: the viable (not hard-banned) continuations of a
hypothesis, in ascending token-id order, each with its finite adjusted score. -/
def viableCands (c : DecodingConfig) (oracle : List ℕ → ℕ → ℚ) (tokens : List ℕ) :
    List (ℕ × ℚ) :=
  (List.range c.vocab_size).filterMap fun t =>
    if isBannedTok c tokens t then none
    else some (t, preBanScore c tokens t (oracle tokens t))

/-- Modelled from the spec: the degenerate state in which every token of the
vocabulary is banned for the hypothesis (§7, DegenerateBeamState). -/
def allBannedB (c : DecodingConfig) (oracle : List ℕ → ℕ → ℚ) (tokens : List ℕ) : Bool :=
  (viableCands c oracle tokens).isEmpty

theorem viableCands_mem {c : DecodingConfig} {oracle : List ℕ → ℕ → ℚ}
    {tokens : List ℕ} {p : ℕ × ℚ} (h : p ∈ viableCands c oracle tokens) :
    p.1 < c.vocab_size ∧ isBannedTok c tokens p.1 = false ∧
      p.2 = preBanScore c tokens p.1 (oracle tokens p.1) := by
  unfold viableCands at h
  rcases List.mem_filterMap.1 h with ⟨t, ht, hf⟩
  by_cases hb : isBannedTok c tokens t = true
  · rw [if_pos hb] at hf; cases hf
  · rw [if_neg hb] at hf
    cases hf
    exact ⟨List.mem_range.1 ht, by simpa using hb, rfl⟩

/-! ## Hypotheses -/

/-- Modelled from the spec: one candidate output sequence (§3).  `tokens`
starts with the beginning-of-sequence marker; `cumLogProb` is the sum of the
chosen per-token log-probabilities; `finished` never reverts once true. -/
structure Hypothesis where
  tokens : List ℕ
  cumLogProb : ℚ
  finished : Bool
deriving DecidableEq

/-- Modelled from the spec: extend a hypothesis by one chosen token with its
adjusted log-probability; the child is finished when the token is the
end-of-sequence marker or the maximum length is reached (§4.3). -/
def mkChild (c : DecodingConfig) (h : Hypothesis) (t : ℕ) (x : ℚ) : Hypothesis :=
  { tokens := h.tokens ++ [t]
    cumLogProb := h.cumLogProb + x
    finished := decide (t = c.eos_token) || decide (c.max_length ≤ h.tokens.length + 1) }

/-- Modelled from the spec: the degenerate-state rescue (§7): when every token
is banned, force the end-of-sequence token, assigning it its ban-overridden
score, so that forward progress is always made. -/
def forcedChild (c : DecodingConfig) (oracle : List ℕ → ℕ → ℚ) (h : Hypothesis) :
    Hypothesis :=
  { tokens := h.tokens ++ [c.eos_token]
    cumLogProb := h.cumLogProb +
      preBanScore c h.tokens c.eos_token (oracle h.tokens c.eos_token)
    finished := true }

/-- Modelled from the spec: the initial hypothesis holding only the
beginning-of-sequence marker; it is already complete when `max_length ≤ 1`. -/
def initHyp (c : DecodingConfig) : Hypothesis :=
  ⟨[c.bos_token], 0, decide (c.max_length ≤ 1)⟩

/-! ## Beam search -/

/-- Modelled from the spec: the per-input `Beam` (§3): live hypotheses plus the
finished pool. -/
structure BeamState where
  live : List Hypothesis
  pool : List Hypothesis
deriving DecidableEq

/-- Modelled from the spec: the length-penalized score
`cumulative_log_prob / len ** length_penalty` (§4.3), with the exponent taken
as the integer floor of `length_penalty` to stay computable. -/
def penScore (c : DecodingConfig) (h : Hypothesis) : ℚ :=
  h.cumLogProb / ((h.tokens.length : ℚ) ^ ⌊c.length_penalty⌋)

/-- Modelled from the spec: keep the finished pool bounded by `num_beams`,
retaining the best-scoring members (§4.3). -/
def prunePool (c : DecodingConfig) (p : List Hypothesis) : List Hypothesis :=
  if p.length ≤ c.num_beams then p else topN (penScore c) c.num_beams p

/-- Modelled from the spec: deterministic beam expansion of one hypothesis
(§4.2): its top `num_beams` viable continuations by adjusted log-probability
(ties broken by lower token id), tagged with the parent. -/
def beamHypCands (c : DecodingConfig) (oracle : List ℕ → ℕ → ℚ) (h : Hypothesis) :
    List (Hypothesis × ℕ × ℚ) :=
  (topN (fun p => p.2) c.num_beams (viableCands c oracle h.tokens)).map
    fun p => (h, p.1, p.2)

/-- Modelled from the spec: the degenerate live hypotheses of a beam step,
rescued by forcing the end-of-sequence token (§7). -/
def beamForced (c : DecodingConfig) (oracle : List ℕ → ℕ → ℚ) (s : BeamState) :
    List Hypothesis :=
  (s.live.filter fun h => allBannedB c oracle h.tokens).map (forcedChild c oracle)

/-- Modelled from the spec: the finished pool after admitting the rescued
degenerate hypotheses. -/
def beamPool1 (c : DecodingConfig) (oracle : List ℕ → ℕ → ℚ) (s : BeamState) :
    List Hypothesis :=
  s.pool ++ beamForced c oracle s

/-- Modelled from the spec: the pooled candidate continuations of all
non-degenerate live hypotheses of one input (§4.2). -/
def beamCands (c : DecodingConfig) (oracle : List ℕ → ℕ → ℚ) (s : BeamState) :
    List (Hypothesis × ℕ × ℚ) :=
  listJoinMap (beamHypCands c oracle)
    (s.live.filter fun h => !allBannedB c oracle h.tokens)

/-- Modelled from the spec: the next generation of hypotheses — the pooled
candidates scored by `cumulative_log_prob + candidate_log_prob`, selected
within the `num_beams` budget left by the finished pool (§4.2, §3). -/
def beamChildren (c : DecodingConfig) (oracle : List ℕ → ℕ → ℚ) (s : BeamState) :
    List Hypothesis :=
  (topN (fun q => q.1.cumLogProb + q.2.2) (c.num_beams - (beamPool1 c oracle s).length)
    (beamCands c oracle s)).map fun q => mkChild c q.1 q.2.1 q.2.2

/-- Modelled from the spec: one `BeamManager` advance (§4.3): degenerate live
hypotheses are rescued by forcing the end-of-sequence token; the remaining
candidate continuations are pooled and the best are selected; newly finished
children move to the pool, which is then pruned. -/
def beamAdvance (c : DecodingConfig) (oracle : List ℕ → ℕ → ℚ) (s : BeamState) :
    BeamState :=
  { live := (beamChildren c oracle s).filter fun h => !h.finished
    pool := prunePool c
      (beamPool1 c oracle s ++ (beamChildren c oracle s).filter fun h => h.finished) }

/-- Modelled from the spec: the step loop of the decoding engine in beam mode,
with an absolute fuel ceiling; an input is done when no live hypothesis
remains (§4.4). -/
def beamLoop (c : DecodingConfig) (oracle : List ℕ → ℕ → ℚ) :
    ℕ → BeamState → BeamState
  | 0, s => s
  | n + 1, s => if s.live.isEmpty then s else beamLoop c oracle n (beamAdvance c oracle s)

/-- Modelled from the spec: the initial beam for one input. -/
def initBeam (c : DecodingConfig) : BeamState :=
  if (initHyp c).finished then { live := [], pool := [initHyp c] }
  else { live := [initHyp c], pool := [] }

/-- Modelled from the spec: run the beam-mode decoding loop for the
`max_length` step ceiling (§4.4). -/
def beamRun (c : DecodingConfig) (oracle : List ℕ → ℕ → ℚ) : BeamState :=
  beamLoop c oracle c.max_length (initBeam c)

/-- Modelled from the spec: final beam-mode output selection — the top
`num_return_sequences` of the finished pool by length-penalized score (§4.4). -/
def beamOutHyps (c : DecodingConfig) (oracle : List ℕ → ℕ → ℚ) : List Hypothesis :=
  topN (penScore c) c.num_return_sequences (beamRun c oracle).pool

/-! ## Sampling -/

/-- Modelled from the spec: computable stand-in for the exponential map from
log-probabilities to probability weights — strictly increasing and positive. -/
def expQ (q : ℚ) : ℚ := if q < 0 then 1 / (1 - q) else 1 + q

/-- Modelled from the spec: one draw of the process-wide random source mapped
into `[0, 1)` as a rational. -/
def rngQ (rng : ℕ → ℕ → ℕ) (t j : ℕ) : ℚ := (rng t j % 4294967296 : ℕ) / 4294967296

/-- Modelled from the spec: a deterministic random source derived from the
per-engine-instance seed, indexed by step and hypothesis position. -/
def streamOfSeed (seed : ℕ) : ℕ → ℕ → ℕ := fun t j =>
  (seed * 6364136223846793005 + t * 1442695040888963407 + j) % 18446744073709551616

/-- Sum of the probability weights of a candidate list. -/
def sumW (l : List (ℕ × ℚ × ℚ)) : ℚ := (l.map fun q => q.2.2).sum

/-- Modelled from the spec: nucleus restriction (§4.2) — keep the smallest
prefix of the descending-probability candidates whose cumulative weight
reaches the threshold. -/
def nucleusTake (threshold : ℚ) : List (ℕ × ℚ × ℚ) → ℚ → List (ℕ × ℚ × ℚ)
  | [], _ => []
  | q :: rest, acc =>
    if threshold ≤ acc + q.2.2 then [q] else q :: nucleusTake threshold rest (acc + q.2.2)

/-- Modelled from the spec: inverse-CDF draw from a weighted candidate list. -/
def pickCDF : List (ℕ × ℚ × ℚ) → ℚ → Option (ℕ × ℚ × ℚ)
  | [], _ => none
  | q :: rest, x => if x < q.2.2 then some q else pickCDF rest (x - q.2.2)

theorem nucleusTake_subset (threshold : ℚ) :
    ∀ (l : List (ℕ × ℚ × ℚ)) (acc : ℚ) (q : ℕ × ℚ × ℚ),
      q ∈ nucleusTake threshold l acc → q ∈ l := by
  intro l
  induction l with
  | nil => intro acc q h; simp [nucleusTake] at h
  | cons x l ih =>
    intro acc q h
    simp only [nucleusTake] at h
    by_cases hc : threshold ≤ acc + x.2.2
    · rw [if_pos hc] at h
      simp at h
      simp [h]
    · rw [if_neg hc] at h
      rcases List.mem_cons.1 h with rfl | h'
      · exact List.mem_cons_self _ _
      · exact List.mem_cons_of_mem _ (ih (acc + x.2.2) q h')

theorem pickCDF_mem :
    ∀ (l : List (ℕ × ℚ × ℚ)) (x : ℚ) (q : ℕ × ℚ × ℚ), pickCDF l x = some q → q ∈ l := by
  intro l
  induction l with
  | nil => intro x q h; simp [pickCDF] at h
  | cons a l ih =>
    intro x q h
    simp only [pickCDF] at h
    by_cases hc : x < a.2.2
    · rw [if_pos hc] at h; cases h; exact List.mem_cons_self _ _
    · rw [if_neg hc] at h; exact List.mem_cons_of_mem _ (ih (x - a.2.2) q h)

/-- Modelled from the spec: the sampling restriction pipeline (§4.2): weight
the viable continuations, sort them by descending probability (ties broken by
lower token id), restrict to the `top_k` most probable when `top_k > 0`, then
to the nucleus of cumulative probability `top_p` when `top_p < 1`. -/
def sampleRestrict (c : DecodingConfig) (cands : List (ℕ × ℚ)) : List (ℕ × ℚ × ℚ) :=
  let weighted := cands.map fun p => (p.1, p.2, expQ p.2)
  let sorted := topN (fun q => q.2.2) weighted.length weighted
  let afterK := if c.top_k = 0 then sorted else sorted.take c.top_k
  if c.top_p < 1 then nucleusTake (c.top_p * sumW afterK) afterK 0 else afterK

theorem sampleRestrict_mem {c : DecodingConfig} {cands : List (ℕ × ℚ)}
    {q : ℕ × ℚ × ℚ} (hq : q ∈ sampleRestrict c cands) :
    ∃ p ∈ cands, q = (p.1, p.2, expQ p.2) := by
  unfold sampleRestrict at hq
  have h1 : q ∈ (if c.top_k = 0 then
      topN (fun q => q.2.2) (cands.map fun p => (p.1, p.2, expQ p.2)).length
        (cands.map fun p => (p.1, p.2, expQ p.2))
    else (topN (fun q => q.2.2) (cands.map fun p => (p.1, p.2, expQ p.2)).length
        (cands.map fun p => (p.1, p.2, expQ p.2))).take c.top_k) := by
    by_cases hp : c.top_p < 1
    · rw [if_pos hp] at hq; exact nucleusTake_subset _ _ _ _ hq
    · rw [if_neg hp] at hq; exact hq
  have h2 : q ∈ topN (fun q => q.2.2) (cands.map fun p => (p.1, p.2, expQ p.2)).length
      (cands.map fun p => (p.1, p.2, expQ p.2)) := by
    by_cases hk : c.top_k = 0
    · rw [if_pos hk] at h1; exact h1
    · rw [if_neg hk] at h1; exact take_mem_of_mem _ _ _ h1
  have h3 := topN_subset _ _ _ _ h2
  rcases List.mem_map.1 h3 with ⟨p, hp, rfl⟩
  exact ⟨p, hp, rfl⟩

/-- Modelled from the spec: the pair actually drawn for a sampling step, by
inverse-CDF lookup with the step's random draw, over the restricted weighted
candidates; the head candidate is the (unreachable) fallback. -/
def sampleDrawn (c : DecodingConfig) (rng : ℕ → ℕ → ℕ) (t j : ℕ) (c0 : ℕ × ℚ)
    (rest : List (ℕ × ℚ)) : ℕ × ℚ × ℚ :=
  (pickCDF (sampleRestrict c (c0 :: rest))
    (rngQ rng t j * sumW (sampleRestrict c (c0 :: rest)))).getD (c0.1, c0.2, expQ c0.2)

theorem sampleDrawn_mem (c : DecodingConfig) (rng : ℕ → ℕ → ℕ) (t j : ℕ)
    (c0 : ℕ × ℚ) (rest : List (ℕ × ℚ)) :
    ∃ p ∈ c0 :: rest, (sampleDrawn c rng t j c0 rest).1 = p.1 ∧
      (sampleDrawn c rng t j c0 rest).2.1 = p.2 := by
  unfold sampleDrawn
  cases hp : pickCDF (sampleRestrict c (c0 :: rest))
      (rngQ rng t j * sumW (sampleRestrict c (c0 :: rest))) with
  | none => exact ⟨c0, List.mem_cons_self _ _, rfl, rfl⟩
  | some q =>
    have hmem := pickCDF_mem _ _ _ hp
    rcases sampleRestrict_mem hmem with ⟨p, hpc, rfl⟩
    exact ⟨p, hpc, rfl, rfl⟩

/-- Modelled from the spec: one sampling step for one hypothesis (§4.2): draw
one continuation from the restricted distribution; a hypothesis with no viable
continuation is rescued by forcing the end-of-sequence token (§7); a finished
hypothesis never mutates. -/
def sampleStepHyp (c : DecodingConfig) (oracle : List ℕ → ℕ → ℚ) (rng : ℕ → ℕ → ℕ)
    (t j : ℕ) (h : Hypothesis) : Hypothesis :=
  if h.finished then h else
  match viableCands c oracle h.tokens with
  | [] => forcedChild c oracle h
  | c0 :: rest =>
    mkChild c h (sampleDrawn c rng t j c0 rest).1 (sampleDrawn c rng t j c0 rest).2.1

/-- Modelled from the spec: the sampling-mode tracked hypotheses — exactly
`num_return_sequences` independent ones (§3). -/
def initSample (c : DecodingConfig) : List Hypothesis :=
  List.replicate c.num_return_sequences (initHyp c)

/-- Modelled from the spec: the sampling-mode step loop, advancing every
unfinished hypothesis once per step, with the absolute fuel ceiling (§4.4). -/
def sampleLoop (c : DecodingConfig) (oracle : List ℕ → ℕ → ℚ) (rng : ℕ → ℕ → ℕ) :
    ℕ → ℕ → List Hypothesis → List Hypothesis
  | 0, _, hs => hs
  | n + 1, t, hs =>
    if hs.all fun h => h.finished then hs
    else sampleLoop c oracle rng n (t + 1)
      (mapWithIndex (fun j h => sampleStepHyp c oracle rng t j h) 0 hs)

/-- Modelled from the spec: run the sampling-mode decoding loop. -/
def sampleRun (c : DecodingConfig) (oracle : List ℕ → ℕ → ℚ) (rng : ℕ → ℕ → ℕ) :
    List Hypothesis :=
  sampleLoop c oracle rng c.max_length 0 (initSample c)

/-! ## The decoding engine -/

/-- Modelled from the spec: the error taxonomy surfaced to the caller (§7). -/
inductive DecodeError
  | configurationError
deriving DecidableEq

/-- Modelled from the spec: the decoding engine on one input (§4.4): validate
the configuration eagerly, then run the strategy selected by `do_sample`; the
returned lists are the full token sequences of the selected hypotheses. -/
def decodeHyps (c : DecodingConfig) (oracle : List ℕ → ℕ → ℚ) (rng : ℕ → ℕ → ℕ) :
    Except DecodeError (List (List ℕ)) :=
  if c.validB then
    .ok ((if c.do_sample then sampleRun c oracle rng else beamOutHyps c oracle).map
      Hypothesis.tokens)
  else .error .configurationError

/-- Modelled from the spec: strip the leading beginning-of-sequence marker and
any trailing end-of-sequence marker (§4.4). -/
def stripOutput (c : DecodingConfig) (xs : List ℕ) : List ℕ :=
  dropTrailTok c.eos_token (xs.drop 1)

/-- Modelled from the spec: the decoding engine's returned token sequences,
ready for detokenization (§4.4). -/
def decode (c : DecodingConfig) (oracle : List ℕ → ℕ → ℚ) (rng : ℕ → ℕ → ℕ) :
    Except DecodeError (List (List ℕ)) :=
  (decodeHyps c oracle rng).map fun outs => outs.map (stripOutput c)

/-! ## Greedy references -/

/-- Strict greedy step as the claim words it: the single token with the
highest adjusted log-probability, ties broken by lower token id. -/
def greedyNaiveStep (c : DecodingConfig) (oracle : List ℕ → ℕ → ℚ)
    (tokens : List ℕ) : ℕ :=
  (pickBest (adjustedScore c oracle tokens) (List.range c.vocab_size)).getD c.eos_token

/-- Greedy step extended with the degenerate-state rescue of §7: when every
token is banned, force the end-of-sequence token. -/
def greedyStepTok (c : DecodingConfig) (oracle : List ℕ → ℕ → ℚ)
    (tokens : List ℕ) : ℕ :=
  if allBannedB c oracle tokens then c.eos_token
  else greedyNaiveStep c oracle tokens

/-- Reference greedy loop over a step function: append the chosen token until
the end-of-sequence token is chosen or `max_length` is reached. -/
def greedyLoopWith (c : DecodingConfig) (step : List ℕ → ℕ) :
    ℕ → List ℕ × Bool → List ℕ × Bool
  | 0, p => p
  | n + 1, (ts, fin) =>
    if fin then (ts, fin)
    else
      let t := step ts
      greedyLoopWith c step n
        (ts ++ [t], decide (t = c.eos_token) || decide (c.max_length ≤ ts.length + 1))

/-- Strict greedy decoding exactly as the claim words it (no rescue). -/
def greedyNaive (c : DecodingConfig) (oracle : List ℕ → ℕ → ℚ) : List ℕ :=
  (greedyLoopWith c (greedyNaiveStep c oracle) c.max_length
    ([c.bos_token], decide (c.max_length ≤ 1))).1

/-- Greedy decoding extended with the degenerate-state rescue of §7. -/
def greedyRescued (c : DecodingConfig) (oracle : List ℕ → ℕ → ℚ) : List ℕ :=
  (greedyLoopWith c (greedyStepTok c oracle) c.max_length
    ([c.bos_token], decide (c.max_length ≤ 1))).1

/-! ## The translation pipeline (embedded from src/src/pipelines/translation.rs) -/

namespace RustBert

/-- Device to place the model on (opaque to the pipeline logic). -/
inductive Device
  | Cpu
  | Cuda (index : ℕ)
deriving DecidableEq

/-- A remote resource, identified by its (name, url) pointer. -/
structure RemoteResource where
  pointer : String × String
deriving DecidableEq

/-- `RemoteResource::from_pretrained`. -/
def RemoteResource.from_pretrained (p : String × String) : RemoteResource := ⟨p⟩

/-- A model resource. -/
inductive Resource
  | Remote (resource : RemoteResource)
  | Local (path : String)
deriving DecidableEq

/-- Pretrained languages available for direct use. -/
inductive Language
  | EnglishToFrench
  | FrenchToEnglish
deriving DecidableEq

/-- Modelled from the spec: the Marian remote resource pointers live in the
`marian` module, outside the provided sources; their values are opaque
placeholders, used only as data threaded through the pipeline. -/
def RemoteTranslationResources.ENGLISH2FRENCH :
    (String × String) × (String × String) × (String × String) × (String × String) :=
  (("marian-mt-en-fr/model", "model-en2fr"), ("marian-mt-en-fr/config", "config-en2fr"),
   ("marian-mt-en-fr/vocab", "vocab-en2fr"), ("marian-mt-en-fr/spiece", "spm-en2fr"))

/-- Modelled from the spec: as `RemoteTranslationResources.ENGLISH2FRENCH`, for
the French-to-English pretrained model. -/
def RemoteTranslationResources.FRENCH2ENGLISH :
    (String × String) × (String × String) × (String × String) × (String × String) :=
  (("marian-mt-fr-en/model", "model-fr2en"), ("marian-mt-fr-en/config", "config-fr2en"),
   ("marian-mt-fr-en/vocab", "vocab-fr2en"), ("marian-mt-fr-en/spiece", "spm-fr2en"))

/-- Configuration for text translation (`TranslationConfig` in the source);
integer fields are naturals, float fields are rationals. -/
structure TranslationConfig where
  model_resource : Resource
  config_resource : Resource
  vocab_resource : Resource
  merges_resource : Resource
  min_length : ℕ
  max_length : ℕ
  do_sample : Bool
  early_stopping : Bool
  num_beams : ℕ
  temperature : ℚ
  top_k : ℕ
  top_p : ℚ
  repetition_penalty : ℚ
  length_penalty : ℚ
  no_repeat_ngram_size : ℕ
  num_return_sequences : ℕ
  device : Device
deriving DecidableEq

/-- `TranslationConfig::new`. -/
def TranslationConfig.new (language : Language) (device : Device) : TranslationConfig :=
  let res := match language with
    | Language.EnglishToFrench => RemoteTranslationResources.ENGLISH2FRENCH
    | Language.FrenchToEnglish => RemoteTranslationResources.FRENCH2ENGLISH
  let model_resource := Resource.Remote (RemoteResource.from_pretrained res.1)
  let config_resource := Resource.Remote (RemoteResource.from_pretrained res.2.1)
  let vocab_resource := Resource.Remote (RemoteResource.from_pretrained res.2.2.1)
  let merges_resource := Resource.Remote (RemoteResource.from_pretrained res.2.2.2)
  { model_resource := model_resource
    config_resource := config_resource
    vocab_resource := vocab_resource
    merges_resource := merges_resource
    min_length := 0
    max_length := 512
    do_sample := false
    early_stopping := false
    num_beams := 6
    temperature := 1
    top_k := 50
    top_p := 1
    repetition_penalty := 1
    length_penalty := 1
    no_repeat_ngram_size := 0
    num_return_sequences := 1
    device := device }

/-- `TranslationConfig::new_from_resources`. -/
def TranslationConfig.new_from_resources (model_resource config_resource
    vocab_resource sentence_piece_resource : Resource) (device : Device) :
    TranslationConfig :=
  { model_resource := model_resource
    config_resource := config_resource
    vocab_resource := vocab_resource
    merges_resource := sentence_piece_resource
    min_length := 0
    max_length := 512
    do_sample := false
    early_stopping := false
    num_beams := 6
    temperature := 1
    top_k := 50
    top_p := 1
    repetition_penalty := 1
    length_penalty := 1
    no_repeat_ngram_size := 0
    num_return_sequences := 1
    device := device }

/-- The generation configuration handed to `MarianGenerator::new`
(`GenerateConfig` in the source). -/
structure GenerateConfig where
  model_resource : Resource
  config_resource : Resource
  merges_resource : Resource
  vocab_resource : Resource
  min_length : ℕ
  max_length : ℕ
  do_sample : Bool
  early_stopping : Bool
  num_beams : ℕ
  temperature : ℚ
  top_k : ℕ
  top_p : ℚ
  repetition_penalty : ℚ
  length_penalty : ℚ
  no_repeat_ngram_size : ℕ
  num_return_sequences : ℕ
  device : Device
deriving DecidableEq

/-- `TranslationModel`, generic over the generator produced by the external
`MarianGenerator::new` collaborator. -/
structure TranslationModel (G : Type) where
  model : G
deriving DecidableEq

/-- The `GenerateConfig` literal built inside `TranslationModel::new`. -/
def TranslationModel.generateConfigOf (tc : TranslationConfig) : GenerateConfig :=
  { model_resource := tc.model_resource
    config_resource := tc.config_resource
    merges_resource := tc.merges_resource
    vocab_resource := tc.vocab_resource
    min_length := tc.min_length
    max_length := tc.max_length
    do_sample := tc.do_sample
    early_stopping := tc.early_stopping
    num_beams := tc.num_beams
    temperature := tc.temperature
    top_k := tc.top_k
    top_p := tc.top_p
    repetition_penalty := tc.repetition_penalty
    length_penalty := tc.length_penalty
    no_repeat_ngram_size := tc.no_repeat_ngram_size
    num_return_sequences := tc.num_return_sequences
    device := tc.device }

/-- `TranslationModel::new`, parameterized by the external collaborator
`MarianGenerator::new`; the `?` operator is the `match` on the result. -/
def TranslationModel.new {G E : Type} (marianGeneratorNew : GenerateConfig → Except E G)
    (translation_config : TranslationConfig) : Except E (TranslationModel G) :=
  match marianGeneratorNew (TranslationModel.generateConfigOf translation_config) with
  | Except.ok model => Except.ok ⟨model⟩
  | Except.error e => Except.error e

end RustBert

/-! ## Invariants of the decoding engine -/

theorem validB_spec {c : DecodingConfig} (h : c.validB = true) :
    c.min_length < c.max_length ∧ 1 ≤ c.num_beams ∧ 1 ≤ c.num_return_sequences ∧
    (c.do_sample = false → c.num_return_sequences ≤ c.num_beams) ∧
    0 < c.temperature ∧ 0 < c.top_p ∧ c.top_p ≤ 1 ∧ 1 ≤ c.repetition_penalty ∧
    c.eos_token < c.vocab_size ∧ c.bos_token < c.vocab_size := by
  unfold DecodingConfig.validB at h
  simp only [Bool.and_eq_true, decide_eq_true_eq] at h
  obtain ⟨⟨⟨⟨⟨⟨⟨⟨⟨h1, h2⟩, h3⟩, h4⟩, h5⟩, h6⟩, h7⟩, h8⟩, h9⟩, h10⟩ := h
  refine ⟨h1, h2, h3, ?_, h5, h6, h7, h8, h9, h10⟩
  intro hs
  rw [hs] at h4
  simpa using h4

/-- Invariant of an unfinished (live) hypothesis: nonempty, strictly below the
maximum length, no end-of-sequence token after the leading marker, and no
repeated n-gram when blocking is on. -/
def LiveInv (c : DecodingConfig) (h : Hypothesis) : Prop :=
  1 ≤ h.tokens.length ∧ h.tokens.length < c.max_length ∧
  (∀ x ∈ h.tokens.drop 1, x ≠ c.eos_token) ∧
  (0 < c.no_repeat_ngram_size → NoDupNgram c.no_repeat_ngram_size h.tokens)

/-- Invariant of a finished hypothesis: length bounds, no end-of-sequence token
in the stripped output, no repeated n-gram (after removal of a forced trailing
end-of-sequence token) when blocking is on, and the minimum length is honoured
unless the all-banned rescue forced an early end-of-sequence token. -/
def FinInv (c : DecodingConfig) (oracle : List ℕ → ℕ → ℚ) (h : Hypothesis) : Prop :=
  1 ≤ h.tokens.length ∧ h.tokens.length ≤ c.max_length ∧
  (∀ x ∈ stripOutput c h.tokens, x ≠ c.eos_token) ∧
  (0 < c.no_repeat_ngram_size →
    NoDupNgram c.no_repeat_ngram_size (dropTrailTok c.eos_token h.tokens)) ∧
  (c.min_length ≤ h.tokens.length ∨
    (h.tokens.getLast? = some c.eos_token ∧
      allBannedB c oracle h.tokens.dropLast = true))

theorem drop_one_concat {α : Type} (ts : List α) (t : α) (h : 1 ≤ ts.length) :
    (ts ++ [t]).drop 1 = ts.drop 1 ++ [t] := by
  rw [List.drop_append_eq_append_drop]
  have : 1 - ts.length = 0 := by omega
  rw [this]
  simp

theorem mkChild_not_finished {c : DecodingConfig} {h : Hypothesis} {t : ℕ} {x : ℚ}
    (hf : (mkChild c h t x).finished = false) :
    t ≠ c.eos_token ∧ h.tokens.length + 1 < c.max_length := by
  unfold mkChild at hf
  simp only [Bool.or_eq_false_iff, decide_eq_false_iff_not] at hf
  exact ⟨hf.1, by omega⟩

theorem liveInv_mkChild {c : DecodingConfig} {oracle : List ℕ → ℕ → ℚ}
    {h : Hypothesis} {p : ℕ × ℚ} (hl : LiveInv c h)
    (hp : p ∈ viableCands c oracle h.tokens)
    (hf : (mkChild c h p.1 p.2).finished = false) :
    LiveInv c (mkChild c h p.1 p.2) := by
  obtain ⟨hlen1, hlenM, hnoe, hdup⟩ := hl
  obtain ⟨hne, hltM⟩ := mkChild_not_finished hf
  obtain ⟨_, hban, _⟩ := viableCands_mem hp
  refine ⟨?_, ?_, ?_, ?_⟩
  · simp [mkChild]
  · simpa [mkChild] using hltM
  · intro x hx
    rw [show (mkChild c h p.1 p.2).tokens = h.tokens ++ [p.1] from rfl,
      drop_one_concat h.tokens p.1 hlen1] at hx
    rcases List.mem_append.1 hx with hx' | hx'
    · exact hnoe x hx'
    · rcases List.mem_singleton.1 hx' with rfl
      exact hne
  · intro hN
    have hbN : bannedNgramTok c.no_repeat_ngram_size h.tokens p.1 = false := by
      unfold isBannedTok at hban
      simp only [Bool.or_eq_false_iff] at hban
      exact hban.1
    exact NoDupNgram.append_not_banned hbN (hdup hN) hN

theorem finInv_mkChild {c : DecodingConfig} {oracle : List ℕ → ℕ → ℚ}
    {h : Hypothesis} {p : ℕ × ℚ} (hc : c.validB = true) (hl : LiveInv c h)
    (hp : p ∈ viableCands c oracle h.tokens)
    (hf : (mkChild c h p.1 p.2).finished = true) :
    FinInv c oracle (mkChild c h p.1 p.2) := by
  obtain ⟨hlen1, hlenM, hnoe, hdup⟩ := hl
  obtain ⟨_, hban, _⟩ := viableCands_mem hp
  have htoks : (mkChild c h p.1 p.2).tokens = h.tokens ++ [p.1] := rfl
  have hminM := (validB_spec hc).1
  by_cases he : p.1 = c.eos_token
  · -- finished by choosing the end-of-sequence token, which was not banned
    have hminlen : c.min_length ≤ h.tokens.length := by
      unfold isBannedTok at hban
      simp only [Bool.or_eq_false_iff, Bool.and_eq_false_iff] at hban
      rcases hban.2 with h' | h'
      · exact absurd (by simpa using he) (by simpa using h')
      · have := of_decide_eq_false h'
        omega
    refine ⟨?_, ?_, ?_, ?_, ?_⟩
    · simp [htoks]
    · rw [htoks]; simp only [List.length_append, List.length_singleton]; omega
    · intro x hx
      rw [show stripOutput c (mkChild c h p.1 p.2).tokens = h.tokens.drop 1 by
        rw [htoks, he]
        unfold stripOutput
        rw [drop_one_concat h.tokens c.eos_token hlen1, dropTrailTok_concat_self]] at hx
      exact hnoe x hx
    · intro hN
      rw [htoks, he, dropTrailTok_concat_self]
      exact hdup hN
    · left
      rw [htoks]
      simp only [List.length_append, List.length_singleton]
      omega
  · -- finished by reaching the maximum length
    have hmax : c.max_length ≤ h.tokens.length + 1 := by
      unfold mkChild at hf
      simp only [Bool.or_eq_true, decide_eq_true_eq] at hf
      rcases hf with h' | h'
      · exact absurd h' he
      · exact h'
    refine ⟨?_, ?_, ?_, ?_, ?_⟩
    · simp [htoks]
    · rw [htoks]; simp only [List.length_append, List.length_singleton]; omega
    · intro x hx
      rw [show stripOutput c (mkChild c h p.1 p.2).tokens = h.tokens.drop 1 ++ [p.1] by
        rw [htoks]
        unfold stripOutput
        rw [drop_one_concat h.tokens p.1 hlen1, dropTrailTok_concat_ne _ _ _ he]] at hx
      rcases List.mem_append.1 hx with hx' | hx'
      · exact hnoe x hx'
      · rcases List.mem_singleton.1 hx' with rfl
        exact he
    · intro hN
      have hbN : bannedNgramTok c.no_repeat_ngram_size h.tokens p.1 = false := by
        unfold isBannedTok at hban
        simp only [Bool.or_eq_false_iff] at hban
        exact hban.1
      rw [htoks, dropTrailTok_concat_ne _ _ _ he]
      exact NoDupNgram.append_not_banned hbN (hdup hN) hN
    · left
      rw [htoks]
      simp only [List.length_append, List.length_singleton]
      omega

theorem FinInv.forcedChild_of_banned {c : DecodingConfig} {oracle : List ℕ → ℕ → ℚ}
    {h : Hypothesis} (hl : LiveInv c h)
    (hb : allBannedB c oracle h.tokens = true) :
    FinInv c oracle (forcedChild c oracle h) := by
  obtain ⟨hlen1, hlenM, hnoe, hdup⟩ := hl
  have htoks : (forcedChild c oracle h).tokens = h.tokens ++ [c.eos_token] := rfl
  refine ⟨?_, ?_, ?_, ?_, ?_⟩
  · simp [htoks]
  · rw [htoks]; simp only [List.length_append, List.length_singleton]; omega
  · intro x hx
    rw [show stripOutput c (forcedChild c oracle h).tokens = h.tokens.drop 1 by
      rw [htoks]
      unfold stripOutput
      rw [drop_one_concat h.tokens c.eos_token hlen1, dropTrailTok_concat_self]] at hx
    exact hnoe x hx
  · intro hN
    rw [htoks, dropTrailTok_concat_self]
    exact hdup hN
  · right
    rw [htoks]
    constructor
    · exact List.getLast?_concat _
    · rw [List.dropLast_concat]
      exact hb

theorem initHyp_live {c : DecodingConfig} (hf : (initHyp c).finished = false) :
    LiveInv c (initHyp c) := by
  unfold initHyp at hf ⊢
  simp only [decide_eq_false_iff_not, not_le] at hf
  refine ⟨by simp, by simpa using hf, by simp, ?_⟩
  intro hN i j hij hjN
  simp only [List.length_singleton] at hjN
  omega

theorem initHyp_fin {c : DecodingConfig} {oracle : List ℕ → ℕ → ℚ}
    (hc : c.validB = true) (hf : (initHyp c).finished = true) :
    FinInv c oracle (initHyp c) := by
  have hminM := (validB_spec hc).1
  have hmax : c.max_length ≤ 1 := by
    have : decide (c.max_length ≤ 1) = true := hf
    simpa using this
  have htoks : (initHyp c).tokens = [c.bos_token] := rfl
  refine ⟨?_, ?_, ?_, ?_, ?_⟩
  · rw [htoks]; simp
  · rw [htoks]; simp only [List.length_singleton]; omega
  · intro x hx
    rw [htoks] at hx
    simp [stripOutput, dropTrailTok] at hx
  · intro hN i j hij hjN
    rw [htoks] at hjN
    have hlen : (dropTrailTok c.eos_token [c.bos_token]).length ≤ 1 := by
      unfold dropTrailTok
      split <;> simp
    omega
  · left
    rw [htoks]
    simp only [List.length_singleton]
    omega

/-! ## Beam state invariants -/

theorem prunePool_subset (c : DecodingConfig) (p : List Hypothesis) :
    prunePool c p ⊆ p := by
  unfold prunePool
  split
  · exact fun a ha => ha
  · intro a ha
    exact topN_subset _ _ _ _ ha

theorem beamHypCands_mem {c : DecodingConfig} {oracle : List ℕ → ℕ → ℚ}
    {h : Hypothesis} {q : Hypothesis × ℕ × ℚ} (hq : q ∈ beamHypCands c oracle h) :
    q.1 = h ∧ (q.2.1, q.2.2) ∈ viableCands c oracle h.tokens := by
  unfold beamHypCands at hq
  rcases List.mem_map.1 hq with ⟨p, hp, rfl⟩
  refine ⟨rfl, ?_⟩
  simpa using topN_subset _ _ _ _ hp

theorem beamChildren_mem {c : DecodingConfig} {oracle : List ℕ → ℕ → ℚ}
    {s : BeamState} {h : Hypothesis} (hm : h ∈ beamChildren c oracle s) :
    ∃ h' ∈ s.live, ∃ p ∈ viableCands c oracle h'.tokens, h = mkChild c h' p.1 p.2 := by
  unfold beamChildren at hm
  rcases List.mem_map.1 hm with ⟨q, hq, rfl⟩
  have hq2 := topN_subset _ _ _ _ hq
  rcases listJoinMap_mem _ _ _ hq2 with ⟨h', hh', hqc⟩
  have hh'live : h' ∈ s.live := (List.mem_filter.1 hh').1
  rcases beamHypCands_mem hqc with ⟨heq, hviable⟩
  exact ⟨h', hh'live, (q.2.1, q.2.2), hviable, by rw [heq]⟩

/-- Invariant of a beam state: every live hypothesis satisfies `LiveInv` and
every pooled hypothesis satisfies `FinInv`. -/
def BeamInv (c : DecodingConfig) (oracle : List ℕ → ℕ → ℚ) (s : BeamState) : Prop :=
  (∀ h ∈ s.live, LiveInv c h) ∧ (∀ h ∈ s.pool, FinInv c oracle h)

theorem beamAdvance_inv {c : DecodingConfig} {oracle : List ℕ → ℕ → ℚ}
    {s : BeamState} (hc : c.validB = true) (hs : BeamInv c oracle s) :
    BeamInv c oracle (beamAdvance c oracle s) := by
  obtain ⟨hlive, hpool⟩ := hs
  constructor
  · intro h hm
    have hm' := List.mem_filter.1 hm
    rcases beamChildren_mem hm'.1 with ⟨h', hh', p, hp, rfl⟩
    refine liveInv_mkChild (hlive h' hh') hp ?_
    simpa using hm'.2
  · intro h hm
    have hm2 := prunePool_subset c _ hm
    rcases List.mem_append.1 hm2 with hm3 | hm3
    · unfold beamPool1 at hm3
      rcases List.mem_append.1 hm3 with hm4 | hm4
      · exact hpool h hm4
      · unfold beamForced at hm4
        rcases List.mem_map.1 hm4 with ⟨h', hh', rfl⟩
        have hh'2 := List.mem_filter.1 hh'
        exact FinInv.forcedChild_of_banned (hlive h' hh'2.1) (by simpa using hh'2.2)
    · have hm4 := List.mem_filter.1 hm3
      rcases beamChildren_mem hm4.1 with ⟨h', hh', p, hp, rfl⟩
      exact finInv_mkChild hc (hlive h' hh') hp hm4.2

theorem beamAdvance_count {c : DecodingConfig} {oracle : List ℕ → ℕ → ℚ}
    {s : BeamState} (hcount : s.live.length + s.pool.length ≤ c.num_beams) :
    (beamAdvance c oracle s).live.length + (beamAdvance c oracle s).pool.length
      ≤ c.num_beams := by
  have hF : (s.live.filter fun h => allBannedB c oracle h.tokens).length
      ≤ s.live.length := List.length_filter_le _ _
  have hpool1 : (beamPool1 c oracle s).length ≤ s.pool.length + s.live.length := by
    unfold beamPool1 beamForced
    rw [List.length_append, List.length_map]
    omega
  have hch : (beamChildren c oracle s).length
      ≤ c.num_beams - (beamPool1 c oracle s).length := by
    unfold beamChildren
    rw [List.length_map]
    exact topN_length_le _ _ _
  have hsplit := length_filter_add_length_filter_not
    (fun h : Hypothesis => h.finished) (beamChildren c oracle s)
  have hinb : (beamPool1 c oracle s ++
      ((beamChildren c oracle s).filter fun h => h.finished)).length ≤ c.num_beams := by
    rw [List.length_append]
    have := List.length_filter_le (fun h : Hypothesis => h.finished)
      (beamChildren c oracle s)
    omega
  show ((beamChildren c oracle s).filter fun h => !h.finished).length
      + (prunePool c _).length ≤ c.num_beams
  unfold prunePool
  rw [if_pos hinb, List.length_append]
  omega

theorem beamLoop_inv {c : DecodingConfig} {oracle : List ℕ → ℕ → ℚ}
    (hc : c.validB = true) :
    ∀ (n : ℕ) (s : BeamState), BeamInv c oracle s →
      BeamInv c oracle (beamLoop c oracle n s) := by
  intro n
  induction n with
  | zero => intro s hs; exact hs
  | succ n ih =>
    intro s hs
    unfold beamLoop
    split
    · exact hs
    · exact ih _ (beamAdvance_inv hc hs)

theorem beamLoop_count {c : DecodingConfig} {oracle : List ℕ → ℕ → ℚ} :
    ∀ (n : ℕ) (s : BeamState),
      s.live.length + s.pool.length ≤ c.num_beams →
      (beamLoop c oracle n s).live.length + (beamLoop c oracle n s).pool.length
        ≤ c.num_beams := by
  intro n
  induction n with
  | zero => intro s hs; exact hs
  | succ n ih =>
    intro s hs
    unfold beamLoop
    split
    · exact hs
    · exact ih _ (beamAdvance_count hs)

theorem initBeam_inv {c : DecodingConfig} {oracle : List ℕ → ℕ → ℚ}
    (hc : c.validB = true) : BeamInv c oracle (initBeam c) := by
  unfold initBeam
  split
  · rename_i hf
    refine ⟨by intro h hm; simp at hm, ?_⟩
    intro h hm
    rcases List.mem_singleton.1 hm with rfl
    exact initHyp_fin hc hf
  · rename_i hf
    refine ⟨?_, by intro h hm; simp at hm⟩
    intro h hm
    rcases List.mem_singleton.1 hm with rfl
    exact initHyp_live (by simpa using hf)

theorem initBeam_count {c : DecodingConfig} (hc : c.validB = true) :
    (initBeam c).live.length + (initBeam c).pool.length ≤ c.num_beams := by
  have hB := (validB_spec hc).2.1
  unfold initBeam
  split <;> simp <;> omega

theorem beamAdvance_live_len {c : DecodingConfig} {oracle : List ℕ → ℕ → ℚ}
    {s : BeamState} {n : ℕ} (hl : ∀ h ∈ s.live, h.tokens.length = n) :
    ∀ h ∈ (beamAdvance c oracle s).live, h.tokens.length = n + 1 := by
  intro h hm
  have hm' := List.mem_filter.1 hm
  rcases beamChildren_mem hm'.1 with ⟨h', hh', p, hp, rfl⟩
  simp [mkChild, hl h' hh']

theorem beamLoop_term {c : DecodingConfig} {oracle : List ℕ → ℕ → ℚ}
    (hc : c.validB = true) :
    ∀ (f n : ℕ) (s : BeamState), BeamInv c oracle s →
      (∀ h ∈ s.live, h.tokens.length = n) →
      c.max_length ≤ n + f →
      (beamLoop c oracle f s).live = [] := by
  intro f
  induction f with
  | zero =>
    intro n s hinv hlen hle
    cases hlive : s.live with
    | nil => exact hlive
    | cons h t =>
      have hmem : h ∈ s.live := by rw [hlive]; exact List.mem_cons_self h t
      have h1 := hinv.1 h hmem
      have h2 := hlen h hmem
      have := h1.2.1
      omega
  | succ f ih =>
    intro n s hinv hlen hle
    unfold beamLoop
    split
    · rename_i hemp
      exact List.isEmpty_iff.1 hemp
    · exact ih (n + 1) _ (beamAdvance_inv hc hinv) (beamAdvance_live_len hlen) (by omega)

theorem beamLoop_succ (c : DecodingConfig) (oracle : List ℕ → ℕ → ℚ) (n : ℕ)
    (s : BeamState) :
    beamLoop c oracle (n + 1) s =
      if s.live.isEmpty = true then s else beamLoop c oracle n (beamAdvance c oracle s) :=
  rfl

theorem beamLoop_of_empty {c : DecodingConfig} {oracle : List ℕ → ℕ → ℚ}
    (s : BeamState) (h : s.live = []) : ∀ n, beamLoop c oracle n s = s := by
  intro n
  cases n with
  | zero => rfl
  | succ n =>
    rw [beamLoop_succ, if_pos (by rw [h]; rfl)]

theorem beamLoop_absorb {c : DecodingConfig} {oracle : List ℕ → ℕ → ℚ} (m : ℕ) :
    ∀ (f : ℕ) (s : BeamState), (beamLoop c oracle f s).live = [] →
      beamLoop c oracle (f + m) s = beamLoop c oracle f s := by
  intro f
  induction f with
  | zero =>
    intro s h
    rw [Nat.zero_add]
    exact beamLoop_of_empty s h m
  | succ f ih =>
    intro s h
    have he : f + 1 + m = (f + m) + 1 := by omega
    rw [he]
    by_cases hemp : s.live.isEmpty = true
    · have e1 : beamLoop c oracle (f + m + 1) s = s := by
        rw [beamLoop_succ, if_pos hemp]
      have e2 : beamLoop c oracle (f + 1) s = s := by
        rw [beamLoop_succ, if_pos hemp]
      rw [e1, e2]
    · have e1 : beamLoop c oracle (f + m + 1) s
          = beamLoop c oracle (f + m) (beamAdvance c oracle s) := by
        rw [beamLoop_succ, if_neg hemp]
      have e2 : beamLoop c oracle (f + 1) s
          = beamLoop c oracle f (beamAdvance c oracle s) := by
        rw [beamLoop_succ, if_neg hemp]
      rw [e1, e2]
      apply ih
      rw [← e2]
      exact h

/-! ## Sampling state invariants -/

theorem sampleStepHyp_cases (c : DecodingConfig) (oracle : List ℕ → ℕ → ℚ)
    (rng : ℕ → ℕ → ℕ) (t j : ℕ) (h : Hypothesis) :
    (h.finished = true ∧ sampleStepHyp c oracle rng t j h = h) ∨
    (h.finished = false ∧ allBannedB c oracle h.tokens = true ∧
      sampleStepHyp c oracle rng t j h = forcedChild c oracle h) ∨
    (h.finished = false ∧ ∃ p ∈ viableCands c oracle h.tokens,
      sampleStepHyp c oracle rng t j h = mkChild c h p.1 p.2) := by
  by_cases hf : h.finished = true
  · left
    refine ⟨hf, ?_⟩
    unfold sampleStepHyp
    rw [if_pos hf]
  · have hf' : h.finished = false := by simpa using hf
    right
    cases hv : viableCands c oracle h.tokens with
    | nil =>
      left
      refine ⟨hf', by simp [allBannedB, hv], ?_⟩
      unfold sampleStepHyp
      rw [if_neg hf, hv]
    | cons c0 rest =>
      right
      rcases sampleDrawn_mem c rng t j c0 rest with ⟨p, hp, h1, h2⟩
      refine ⟨hf', p, hv ▸ hp, ?_⟩
      unfold sampleStepHyp
      rw [if_neg hf, hv]
      show mkChild c h (sampleDrawn c rng t j c0 rest).1
          (sampleDrawn c rng t j c0 rest).2.1 = mkChild c h p.1 p.2
      rw [h1, h2]

/-- Invariant of the sampling-mode tracked hypotheses. -/
def SampleInv (c : DecodingConfig) (oracle : List ℕ → ℕ → ℚ)
    (hs : List Hypothesis) : Prop :=
  ∀ h ∈ hs, (h.finished = false → LiveInv c h) ∧ (h.finished = true → FinInv c oracle h)

theorem SampleInv.step {c : DecodingConfig} {oracle : List ℕ → ℕ → ℚ}
    {rng : ℕ → ℕ → ℕ} {t : ℕ} {hs : List Hypothesis} (hc : c.validB = true)
    (hinv : SampleInv c oracle hs) :
    SampleInv c oracle
      (mapWithIndex (fun j h => sampleStepHyp c oracle rng t j h) 0 hs) := by
  intro h hm
  rcases mapWithIndex_mem _ _ _ _ hm with ⟨j, h0, hh0, rfl⟩
  have hh := hinv h0 hh0
  rcases sampleStepHyp_cases c oracle rng t j h0 with
    ⟨hf, he⟩ | ⟨hf, hb, he⟩ | ⟨hf, p, hp, he⟩
  · rw [he]; exact hh
  · rw [he]
    constructor
    · intro hcontra; simp [forcedChild] at hcontra
    · intro _; exact FinInv.forcedChild_of_banned (hh.1 hf) hb
  · rw [he]
    constructor
    · intro hnf; exact liveInv_mkChild (hh.1 hf) hp hnf
    · intro hfin; exact finInv_mkChild hc (hh.1 hf) hp hfin

theorem sampleLoop_inv {c : DecodingConfig} {oracle : List ℕ → ℕ → ℚ}
    {rng : ℕ → ℕ → ℕ} (hc : c.validB = true) :
    ∀ (n t : ℕ) (hs : List Hypothesis), SampleInv c oracle hs →
      SampleInv c oracle (sampleLoop c oracle rng n t hs) := by
  intro n
  induction n with
  | zero => intro t hs hinv; exact hinv
  | succ n ih =>
    intro t hs hinv
    unfold sampleLoop
    split
    · exact hinv
    · exact ih _ _ (SampleInv.step hc hinv)

theorem initSample_inv {c : DecodingConfig} {oracle : List ℕ → ℕ → ℚ}
    (hc : c.validB = true) : SampleInv c oracle (initSample c) := by
  intro h hm
  have := List.eq_of_mem_replicate hm
  subst this
  exact ⟨fun hf => initHyp_live hf, fun hf => initHyp_fin hc hf⟩

theorem sampleStepHyp_len {c : DecodingConfig} {oracle : List ℕ → ℕ → ℚ}
    {rng : ℕ → ℕ → ℕ} {t j n : ℕ} {h : Hypothesis}
    (hlen : h.finished = false → h.tokens.length = n) :
    (sampleStepHyp c oracle rng t j h).finished = false →
      (sampleStepHyp c oracle rng t j h).tokens.length = n + 1 := by
  intro hnf
  rcases sampleStepHyp_cases c oracle rng t j h with
    ⟨hf, he⟩ | ⟨hf, hb, he⟩ | ⟨hf, p, hp, he⟩
  · rw [he] at hnf
    rw [hf] at hnf
    cases hnf
  · rw [he] at hnf
    simp [forcedChild] at hnf
  · rw [he] at hnf ⊢
    simp [mkChild, hlen hf]

theorem sampleLoop_term {c : DecodingConfig} {oracle : List ℕ → ℕ → ℚ}
    {rng : ℕ → ℕ → ℕ} (hc : c.validB = true) :
    ∀ (f t : ℕ) (hs : List Hypothesis), SampleInv c oracle hs →
      (∀ h ∈ hs, h.finished = false → h.tokens.length = t + 1) →
      c.max_length ≤ t + 1 + f →
      ∀ h ∈ sampleLoop c oracle rng f t hs, h.finished = true := by
  intro f
  induction f with
  | zero =>
    intro t hs hinv hlen hle h hm
    by_cases hf : h.finished = true
    · exact hf
    · have hf' : h.finished = false := by simpa using hf
      have h1 := (hinv h hm).1 hf'
      have h2 := hlen h hm hf'
      have := h1.2.1
      omega
  | succ f ih =>
    intro t hs hinv hlen hle h hm
    unfold sampleLoop at hm
    by_cases hall : hs.all (fun h => h.finished) = true
    · rw [if_pos hall] at hm
      exact List.all_eq_true.1 hall h hm
    · rw [if_neg hall] at hm
      refine ih (t + 1) _ (SampleInv.step hc hinv) ?_ (by omega) h hm
      intro h' hm' hnf
      rcases mapWithIndex_mem _ _ _ _ hm' with ⟨j, h0, hh0, rfl⟩
      exact sampleStepHyp_len (hlen h0 hh0) hnf

theorem sampleLoop_succ (c : DecodingConfig) (oracle : List ℕ → ℕ → ℚ)
    (rng : ℕ → ℕ → ℕ) (n t : ℕ) (hs : List Hypothesis) :
    sampleLoop c oracle rng (n + 1) t hs =
      if hs.all (fun h => h.finished) = true then hs
      else sampleLoop c oracle rng n (t + 1)
        (mapWithIndex (fun j h => sampleStepHyp c oracle rng t j h) 0 hs) :=
  rfl

theorem sampleLoop_of_allfin {c : DecodingConfig} {oracle : List ℕ → ℕ → ℚ}
    {rng : ℕ → ℕ → ℕ} (hs : List Hypothesis)
    (h : ∀ h' ∈ hs, h'.finished = true) :
    ∀ (n t : ℕ), sampleLoop c oracle rng n t hs = hs := by
  intro n t
  cases n with
  | zero => rfl
  | succ n =>
    rw [sampleLoop_succ, if_pos (List.all_eq_true.2 h)]

theorem sampleLoop_absorb {c : DecodingConfig} {oracle : List ℕ → ℕ → ℚ}
    {rng : ℕ → ℕ → ℕ} (m : ℕ) :
    ∀ (f t : ℕ) (hs : List Hypothesis),
      (∀ h ∈ sampleLoop c oracle rng f t hs, h.finished = true) →
      sampleLoop c oracle rng (f + m) t hs = sampleLoop c oracle rng f t hs := by
  intro f
  induction f with
  | zero =>
    intro t hs h
    rw [Nat.zero_add]
    exact sampleLoop_of_allfin hs h m t
  | succ f ih =>
    intro t hs h
    have he : f + 1 + m = (f + m) + 1 := by omega
    rw [he]
    by_cases hall : hs.all (fun h => h.finished) = true
    · rw [sampleLoop_succ, if_pos hall, sampleLoop_succ, if_pos hall]
    · have e1 := sampleLoop_succ c oracle rng (f + m) t hs
      have e2 := sampleLoop_succ c oracle rng f t hs
      rw [if_neg hall] at e1 e2
      rw [e1, e2]
      apply ih
      rw [← e2]
      exact h

/-! ## Random-source congruence (sampling determinism) -/

theorem sampleDrawn_congr {c : DecodingConfig} {r1 r2 : ℕ → ℕ → ℕ} {t j : ℕ}
    {c0 : ℕ × ℚ} {rest : List (ℕ × ℚ)} (hr : r1 t j = r2 t j) :
    sampleDrawn c r1 t j c0 rest = sampleDrawn c r2 t j c0 rest := by
  unfold sampleDrawn rngQ
  rw [hr]

theorem sampleStepHyp_congr {c : DecodingConfig} {oracle : List ℕ → ℕ → ℚ}
    {r1 r2 : ℕ → ℕ → ℕ} {t j : ℕ} {h : Hypothesis}
    (hr : r1 t j = r2 t j) :
    sampleStepHyp c oracle r1 t j h = sampleStepHyp c oracle r2 t j h := by
  unfold sampleStepHyp
  by_cases hf : h.finished = true
  · rw [if_pos hf, if_pos hf]
  · rw [if_neg hf, if_neg hf]
    cases hv : viableCands c oracle h.tokens with
    | nil => rfl
    | cons c0 rest =>
      show mkChild c h (sampleDrawn c r1 t j c0 rest).1
          (sampleDrawn c r1 t j c0 rest).2.1
        = mkChild c h (sampleDrawn c r2 t j c0 rest).1
          (sampleDrawn c r2 t j c0 rest).2.1
      rw [sampleDrawn_congr hr]

theorem mapWithIndex_congr {α β : Type} {f g : ℕ → α → β}
    (h : ∀ j a, f j a = g j a) :
    ∀ (j : ℕ) (l : List α), mapWithIndex f j l = mapWithIndex g j l := by
  intro j l
  induction l generalizing j with
  | nil => rfl
  | cons x l ih =>
    unfold mapWithIndex
    rw [h j x, ih (j + 1)]

theorem sampleLoop_congr {c : DecodingConfig} {oracle : List ℕ → ℕ → ℚ}
    {r1 r2 : ℕ → ℕ → ℕ} :
    ∀ (n t : ℕ) (hs : List Hypothesis),
      (∀ t' j, t ≤ t' → t' < t + n → r1 t' j = r2 t' j) →
      sampleLoop c oracle r1 n t hs = sampleLoop c oracle r2 n t hs := by
  intro n
  induction n with
  | zero => intro t hs _; rfl
  | succ n ih =>
    intro t hs hr
    rw [sampleLoop_succ, sampleLoop_succ]
    by_cases hall : hs.all (fun h => h.finished) = true
    · rw [if_pos hall, if_pos hall]
    · rw [if_neg hall, if_neg hall]
      rw [mapWithIndex_congr (fun j a => sampleStepHyp_congr (hr t j (le_refl t) (by omega)))]
      exact ih (t + 1) _ (fun t' j h1 h2 => hr t' j (by omega) (by omega))

/-! ## Greedy correspondence -/

theorem adjustedScore_eq_bot_iff (c : DecodingConfig) (oracle : List ℕ → ℕ → ℚ)
    (tokens : List ℕ) (t : ℕ) :
    adjustedScore c oracle tokens t = ⊥ ↔ isBannedTok c tokens t = true := by
  unfold adjustedScore
  by_cases hb : isBannedTok c tokens t = true
  · simp [hb]
  · simp only [hb, if_false, Bool.false_eq_true, iff_false]
    exact WithBot.coe_ne_bot

theorem adjustedScore_of_not_banned {c : DecodingConfig} {oracle : List ℕ → ℕ → ℚ}
    {tokens : List ℕ} {t : ℕ} (hb : isBannedTok c tokens t = false) :
    adjustedScore c oracle tokens t
      = ((preBanScore c tokens t (oracle tokens t) : ℚ) : WithBot ℚ) := by
  unfold adjustedScore
  rw [if_neg (by simp [hb])]

theorem pickBest_viable (c : DecodingConfig) (oracle : List ℕ → ℕ → ℚ)
    (tokens : List ℕ) :
    ∀ (L : List ℕ) (t : ℕ),
      pickBest (adjustedScore c oracle tokens) L = some t →
      ((isBannedTok c tokens t = true →
        L.filterMap (fun u => if isBannedTok c tokens u then none
          else some (u, preBanScore c tokens u (oracle tokens u))) = []) ∧
       (isBannedTok c tokens t = false →
        pickBest (fun p : ℕ × ℚ => p.2)
          (L.filterMap (fun u => if isBannedTok c tokens u then none
            else some (u, preBanScore c tokens u (oracle tokens u)))) =
          some (t, preBanScore c tokens t (oracle tokens t)))) := by
  intro L
  induction L with
  | nil => intro t h; simp [pickBest] at h
  | cons a L ih =>
    intro t h
    simp only [pickBest] at h
    cases hL : pickBest (adjustedScore c oracle tokens) L with
    | none =>
      rw [hL] at h
      have h' : some a = some t := h
      have hL0 : L = [] := by
        cases L with
        | nil => rfl
        | cons y l' =>
          rcases pickBest_isSome (adjustedScore c oracle tokens) y l' with ⟨b, hb⟩
          rw [hb] at hL
          cases hL
      cases h'
      subst hL0
      constructor
      · intro hban
        simp [List.filterMap_cons, hban]
      · intro hban
        simp [List.filterMap_cons, hban, pickBest]
    | some b =>
      rw [hL] at h
      have h' : (if adjustedScore c oracle tokens a < adjustedScore c oracle tokens b
          then some b else some a) = some t := h
      have ihb := ih b hL
      by_cases hcmp : adjustedScore c oracle tokens a < adjustedScore c oracle tokens b
      · rw [if_pos hcmp] at h'
        cases h'
        constructor
        · intro hban
          exfalso
          have hbot : adjustedScore c oracle tokens t = ⊥ :=
            (adjustedScore_eq_bot_iff c oracle tokens t).2 hban
          rw [hbot] at hcmp
          exact absurd hcmp (by simp)
        · intro hban
          have h2 := ihb.2 hban
          by_cases hbanA : isBannedTok c tokens a = true
          · simpa [List.filterMap_cons, hbanA] using h2
          · have hbanA' : isBannedTok c tokens a = false := by simpa using hbanA
            have hA := @adjustedScore_of_not_banned c oracle tokens _ hbanA'
            have hB := @adjustedScore_of_not_banned c oracle tokens _ hban
            rw [hA, hB, WithBot.coe_lt_coe] at hcmp
            simp only [List.filterMap_cons, hbanA', if_false, Bool.false_eq_true, pickBest, h2]
            rw [if_pos hcmp]
      · rw [if_neg hcmp] at h'
        cases h'
        constructor
        · intro hban
          have hA : adjustedScore c oracle tokens a = ⊥ :=
            (adjustedScore_eq_bot_iff c oracle tokens a).2 hban
          have hBle : adjustedScore c oracle tokens b ≤ ⊥ := by
            rw [← hA]
            exact le_of_not_lt hcmp
          have hbanB : isBannedTok c tokens b = true :=
            (adjustedScore_eq_bot_iff c oracle tokens b).1 (le_bot_iff.1 hBle)
          have h1 := ihb.1 hbanB
          simp [List.filterMap_cons, hban, h1]
        · intro hban
          have hA := @adjustedScore_of_not_banned c oracle tokens _ hban
          by_cases hbanB : isBannedTok c tokens b = true
          · have h1 := ihb.1 hbanB
            simp [List.filterMap_cons, hban, h1, pickBest]
          · have hbanB' : isBannedTok c tokens b = false := by simpa using hbanB
            have h2 := ihb.2 hbanB'
            have hB := @adjustedScore_of_not_banned c oracle tokens _ hbanB'
            rw [hA, hB] at hcmp
            have hcmp' : ¬ (preBanScore c tokens a (oracle tokens a)
                < preBanScore c tokens b (oracle tokens b)) := by
              rw [← WithBot.coe_lt_coe]
              exact hcmp
            simp only [List.filterMap_cons, hban, if_false, Bool.false_eq_true, pickBest, h2]
            rw [if_neg hcmp']

theorem pickBest_ne_nil {α β : Type} [LinearOrder β] (key : α → β) {l : List α}
    (h : l ≠ []) : ∃ a, pickBest key l = some a := by
  cases l with
  | nil => exact absurd rfl h
  | cons x l' => exact pickBest_isSome key x l'

theorem topN_one {α β : Type} [DecidableEq α] [LinearOrder β] (key : α → β)
    {l : List α} {a : α} (h : pickBest key l = some a) : topN key 1 l = [a] := by
  unfold topN
  rw [h]
  rfl

/-- The child obtained by extending a hypothesis with the (rescued) greedy
step's token and its ban-overridden adjusted score. -/
def greedyChild (c : DecodingConfig) (oracle : List ℕ → ℕ → ℚ) (h : Hypothesis) :
    Hypothesis :=
  mkChild c h (greedyStepTok c oracle h.tokens)
    (preBanScore c h.tokens (greedyStepTok c oracle h.tokens)
      (oracle h.tokens (greedyStepTok c oracle h.tokens)))

theorem beamAdvance_b1_degen {c : DecodingConfig} {oracle : List ℕ → ℕ → ℚ}
    {h : Hypothesis} (hB : c.num_beams = 1)
    (hb : allBannedB c oracle h.tokens = true) :
    beamAdvance c oracle { live := [h], pool := [] } =
      { live := [], pool := [forcedChild c oracle h] } := by
  have hforced : beamForced c oracle { live := [h], pool := [] }
      = [forcedChild c oracle h] := by
    unfold beamForced
    simp [hb]
  have hpool1 : beamPool1 c oracle { live := [h], pool := [] }
      = [forcedChild c oracle h] := by
    unfold beamPool1
    rw [hforced]
    rfl
  have hcands : beamCands c oracle { live := [h], pool := [] } = [] := by
    unfold beamCands
    simp [hb, listJoinMap]
  have hchildren : beamChildren c oracle { live := [h], pool := [] } = [] := by
    unfold beamChildren
    rw [hpool1, hcands, hB]
    rfl
  unfold beamAdvance
  rw [hchildren, hpool1]
  unfold prunePool
  rw [hB]
  simp

theorem beamAdvance_b1_nondegen {c : DecodingConfig} {oracle : List ℕ → ℕ → ℚ}
    {h : Hypothesis} (hB : c.num_beams = 1) (hV : 0 < c.vocab_size)
    (hnb : allBannedB c oracle h.tokens = false) :
    beamAdvance c oracle { live := [h], pool := [] } =
      if (greedyChild c oracle h).finished = true
      then { live := [], pool := [greedyChild c oracle h] }
      else { live := [greedyChild c oracle h], pool := [] } := by
  have hrange : List.range c.vocab_size ≠ [] := by
    intro hcontra
    rw [← List.length_eq_zero] at hcontra
    rw [List.length_range] at hcontra
    omega
  rcases pickBest_ne_nil (adjustedScore c oracle h.tokens) hrange with ⟨t, ht⟩
  have hbridge := pickBest_viable c oracle h.tokens (List.range c.vocab_size) t ht
  have hviable_eq : (List.range c.vocab_size).filterMap
      (fun u => if isBannedTok c h.tokens u then none
        else some (u, preBanScore c h.tokens u (oracle h.tokens u)))
      = viableCands c oracle h.tokens := rfl
  have htb : isBannedTok c h.tokens t = false := by
    by_cases hcontra : isBannedTok c h.tokens t = true
    · exfalso
      have := hbridge.1 hcontra
      rw [hviable_eq] at this
      rw [allBannedB, this] at hnb
      simp at hnb
    · simpa using hcontra
  have hsnd : pickBest (fun p : ℕ × ℚ => p.2) (viableCands c oracle h.tokens)
      = some (t, preBanScore c h.tokens t (oracle h.tokens t)) := by
    rw [← hviable_eq]
    exact hbridge.2 htb
  have hstep : greedyStepTok c oracle h.tokens = t := by
    unfold greedyStepTok greedyNaiveStep
    rw [if_neg (by rw [hnb]; simp), ht]
    rfl
  have hforced : beamForced c oracle { live := [h], pool := [] } = [] := by
    unfold beamForced
    simp [hnb]
  have hpool1 : beamPool1 c oracle { live := [h], pool := [] } = [] := by
    unfold beamPool1
    rw [hforced]
    rfl
  have hhypcands : beamHypCands c oracle h
      = [(h, t, preBanScore c h.tokens t (oracle h.tokens t))] := by
    unfold beamHypCands
    rw [hB, topN_one _ hsnd]
    rfl
  have hcands : beamCands c oracle { live := [h], pool := [] }
      = [(h, t, preBanScore c h.tokens t (oracle h.tokens t))] := by
    unfold beamCands
    have : (({ live := [h], pool := [] } : BeamState).live.filter
        fun h' => !allBannedB c oracle h'.tokens) = [h] := by
      simp [hnb]
    rw [this]
    unfold listJoinMap listJoinMap
    rw [hhypcands]
    rfl
  have hchildren : beamChildren c oracle { live := [h], pool := [] }
      = [greedyChild c oracle h] := by
    unfold beamChildren
    rw [hpool1, hcands, hB]
    have h1 : (1 : ℕ) - List.length ([] : List Hypothesis) = 1 := rfl
    rw [h1, topN_single]
    unfold greedyChild
    rw [hstep]
    rfl
  unfold beamAdvance
  rw [hchildren, hpool1]
  by_cases hfin : (greedyChild c oracle h).finished = true
  · rw [if_pos hfin]
    have e1 : [greedyChild c oracle h].filter (fun h' => !h'.finished) = [] := by
      simp [hfin]
    have e2 : [greedyChild c oracle h].filter (fun h' => h'.finished) =
        [greedyChild c oracle h] := by
      simp [hfin]
    rw [e1, e2]
    unfold prunePool
    rw [hB]
    simp
  · rw [if_neg hfin]
    have hfin' : (greedyChild c oracle h).finished = false := by simpa using hfin
    have e1 : [greedyChild c oracle h].filter (fun h' => !h'.finished) =
        [greedyChild c oracle h] := by
      simp [hfin']
    have e2 : [greedyChild c oracle h].filter (fun h' => h'.finished) = [] := by
      simp [hfin']
    rw [e1, e2]
    unfold prunePool
    simp

theorem greedyLoopWith_fin (c : DecodingConfig) (step : List ℕ → ℕ) :
    ∀ (n : ℕ) (ts : List ℕ), greedyLoopWith c step n (ts, true) = (ts, true) := by
  intro n ts
  cases n with
  | zero => rfl
  | succ n =>
    unfold greedyLoopWith
    rw [if_pos rfl]

theorem greedyLoopWith_succ (c : DecodingConfig) (step : List ℕ → ℕ) (n : ℕ)
    (ts : List ℕ) (fin : Bool) :
    greedyLoopWith c step (n + 1) (ts, fin) =
      if fin = true then (ts, fin)
      else greedyLoopWith c step n
        (ts ++ [step ts],
          decide (step ts = c.eos_token) || decide (c.max_length ≤ ts.length + 1)) :=
  rfl

theorem map_tokens_singleton {l : List Hypothesis} {x : List ℕ}
    (h : l.map Hypothesis.tokens = [x]) : ∃ h1, l = [h1] ∧ h1.tokens = x := by
  cases l with
  | nil => simp at h
  | cons a u =>
    cases u with
    | nil =>
      simp at h
      exact ⟨a, rfl, h⟩
    | cons b v => simp at h

theorem beamLoop_pool_only (c : DecodingConfig) (oracle : List ℕ → ℕ → ℚ)
    (p : List Hypothesis) (n : ℕ) :
    beamLoop c oracle n { live := [], pool := p } = { live := [], pool := p } :=
  beamLoop_of_empty _ rfl n

theorem beamLoop_b1_greedy {c : DecodingConfig} {oracle : List ℕ → ℕ → ℚ}
    (hc : c.validB = true) (hB : c.num_beams = 1) :
    ∀ (n : ℕ) (ts : List ℕ) (cum : ℚ),
      1 ≤ ts.length → ts.length < c.max_length → c.max_length ≤ ts.length + n →
      (beamLoop c oracle n { live := [⟨ts, cum, false⟩], pool := [] }).pool.map
          Hypothesis.tokens
        = [(greedyLoopWith c (greedyStepTok c oracle) n (ts, false)).1]
      ∧ (beamLoop c oracle n { live := [⟨ts, cum, false⟩], pool := [] }).live = [] := by
  have hV : 0 < c.vocab_size := by
    have := (validB_spec hc).2.2.2.2.2.2.2.2.1
    omega
  intro n
  induction n with
  | zero =>
    intro ts cum h1 h2 h3
    exfalso
    omega
  | succ n ih =>
    intro ts cum h1 h2 h3
    have hstate : (({ live := [⟨ts, cum, false⟩], pool := [] } : BeamState)).live.isEmpty
        = false := rfl
    rw [beamLoop_succ, if_neg (by rw [hstate]; simp)]
    rw [greedyLoopWith_succ, if_neg (by simp)]
    by_cases hb : allBannedB c oracle ts = true
    · -- degenerate: the engine forces the end-of-sequence token, and so does
      -- the rescued greedy reference
      have hadv := @beamAdvance_b1_degen c oracle ⟨ts, cum, false⟩ hB hb
      rw [hadv]
      have hstep : greedyStepTok c oracle ts = c.eos_token := by
        unfold greedyStepTok
        rw [if_pos hb]
      rw [hstep]
      have hfin : (decide (c.eos_token = c.eos_token)
          || decide (c.max_length ≤ ts.length + 1)) = true := by simp
      rw [hfin, greedyLoopWith_fin]
      rw [beamLoop_pool_only]
      exact ⟨rfl, rfl⟩
    · have hb' : allBannedB c oracle ts = false := by simpa using hb
      have hadv := @beamAdvance_b1_nondegen c oracle ⟨ts, cum, false⟩ hB hV hb'
      rw [hadv]
      set t0 := greedyStepTok c oracle ts with ht0
      have hgc : greedyChild c oracle ⟨ts, cum, false⟩ =
          ⟨ts ++ [t0],
            cum + preBanScore c ts t0 (oracle ts t0),
            decide (t0 = c.eos_token) || decide (c.max_length ≤ ts.length + 1)⟩ := rfl
      by_cases hfin : (decide (t0 = c.eos_token)
          || decide (c.max_length ≤ ts.length + 1)) = true
      · have hgcfin : (greedyChild c oracle ⟨ts, cum, false⟩).finished = true := by
          rw [hgc, hfin]
        rw [if_pos hgcfin, hfin, greedyLoopWith_fin]
        rw [beamLoop_pool_only]
        refine ⟨?_, rfl⟩
        rw [hgc]
        rfl
      · have hfin' : (decide (t0 = c.eos_token)
            || decide (c.max_length ≤ ts.length + 1)) = false := by simpa using hfin
        have hgcfin : (greedyChild c oracle ⟨ts, cum, false⟩).finished = false := by
          rw [hgc, hfin']
        rw [if_neg (by rw [hgcfin]; simp), hfin']
        have hlt : ts.length + 1 < c.max_length := by
          simp only [Bool.or_eq_false_iff, decide_eq_false_iff_not] at hfin'
          omega
        have hgc' : greedyChild c oracle ⟨ts, cum, false⟩ =
            ⟨ts ++ [t0], cum + preBanScore c ts t0 (oracle ts t0), false⟩ := by
          rw [hgc, hfin']
        rw [hgc']
        have := ih (ts ++ [t0]) (cum + preBanScore c ts t0 (oracle ts t0))
          (by simp) (by simpa using hlt) (by simp only [List.length_append]; simp; omega)
        exact this

/-! ## Run-level facts -/

theorem beamRun_inv {c : DecodingConfig} {oracle : List ℕ → ℕ → ℚ}
    (hc : c.validB = true) : BeamInv c oracle (beamRun c oracle) :=
  beamLoop_inv hc _ _ (initBeam_inv hc)

theorem beamRun_live_empty {c : DecodingConfig} {oracle : List ℕ → ℕ → ℚ}
    (hc : c.validB = true) : (beamRun c oracle).live = [] := by
  unfold beamRun initBeam
  by_cases hf : (initHyp c).finished = true
  · rw [if_pos hf, beamLoop_pool_only]
  · rw [if_neg hf]
    refine beamLoop_term hc c.max_length 1 _ ⟨?_, ?_⟩ ?_ ?_
    · intro h hm
      rcases List.mem_singleton.1 hm with rfl
      exact initHyp_live (by simpa using hf)
    · intro h hm
      simp at hm
    · intro h hm
      rcases List.mem_singleton.1 hm with rfl
      rfl
    · omega

theorem beamOutHyps_fin {c : DecodingConfig} {oracle : List ℕ → ℕ → ℚ}
    (hc : c.validB = true) : ∀ h ∈ beamOutHyps c oracle, FinInv c oracle h := by
  intro h hm
  have hp := topN_subset _ _ _ _ hm
  exact (beamRun_inv hc).2 h hp

theorem sampleRun_allfin {c : DecodingConfig} {oracle : List ℕ → ℕ → ℚ}
    {rng : ℕ → ℕ → ℕ} (hc : c.validB = true) :
    ∀ h ∈ sampleRun c oracle rng, h.finished = true := by
  refine sampleLoop_term hc c.max_length 0 _ (initSample_inv hc) ?_ (by omega)
  intro h hm _
  have := List.eq_of_mem_replicate hm
  subst this
  rfl

theorem sampleRun_fin {c : DecodingConfig} {oracle : List ℕ → ℕ → ℚ}
    {rng : ℕ → ℕ → ℕ} (hc : c.validB = true) :
    ∀ h ∈ sampleRun c oracle rng, FinInv c oracle h := by
  intro h hm
  exact (sampleLoop_inv hc _ _ _ (initSample_inv hc) h hm).2 (sampleRun_allfin hc h hm)

theorem decodeHyps_mem {c : DecodingConfig} {oracle : List ℕ → ℕ → ℚ}
    {rng : ℕ → ℕ → ℕ} {outs : List (List ℕ)} {seq : List ℕ}
    (hok : decodeHyps c oracle rng = .ok outs) (hseq : seq ∈ outs) :
    c.validB = true ∧ ∃ h : Hypothesis, h.tokens = seq ∧ FinInv c oracle h := by
  unfold decodeHyps at hok
  by_cases hv : c.validB = true
  · rw [if_pos hv] at hok
    refine ⟨hv, ?_⟩
    cases hok
    rcases List.mem_map.1 hseq with ⟨h, hm, rfl⟩
    by_cases hs : c.do_sample = true
    · rw [if_pos hs] at hm
      exact ⟨h, rfl, sampleRun_fin hv h hm⟩
    · rw [if_neg hs] at hm
      exact ⟨h, rfl, beamOutHyps_fin hv h hm⟩
  · rw [if_neg hv] at hok
    cases hok

/-! ## Concrete fixtures for witnesses and counterexamples -/

/-- A valid configuration in which no-repeat 1-gram blocking and minimum-length
forcing can ban every token of the two-token vocabulary. -/
def cexC1 : DecodingConfig :=
  { min_length := 4, max_length := 6, do_sample := false, early_stopping := false,
    num_beams := 1, temperature := 1, top_k := 0, top_p := 1, repetition_penalty := 1,
    length_penalty := 1, no_repeat_ngram_size := 1, num_return_sequences := 1,
    vocab_size := 2, bos_token := 0, eos_token := 1 }

/-- An oracle assigning every token the same log-probability. -/
def zeroOracle : List ℕ → ℕ → ℚ := fun _ _ => 0

/-- A constant random source. -/
def rngZero : ℕ → ℕ → ℕ := fun _ _ => 0

/-- The configuration of the spec's minimum-length scenario: `min_length = 3`,
end-of-sequence id 7. -/
def c8cfg : DecodingConfig :=
  { min_length := 3, max_length := 6, do_sample := false, early_stopping := false,
    num_beams := 1, temperature := 1, top_k := 0, top_p := 1, repetition_penalty := 1,
    length_penalty := 1, no_repeat_ngram_size := 0, num_return_sequences := 1,
    vocab_size := 8, bos_token := 0, eos_token := 7 }

/-- The oracle of the spec's minimum-length scenario: token 7 (end-of-sequence)
has the maximal raw log-probability at every step. -/
def c8oracle : List ℕ → ℕ → ℚ := fun _ t => if t = 7 then 10 else if t = 1 then 5 else 0

/-- A valid configuration with 2-gram blocking on. -/
def c5cfg : DecodingConfig :=
  { min_length := 0, max_length := 6, do_sample := false, early_stopping := false,
    num_beams := 1, temperature := 1, top_k := 0, top_p := 1, repetition_penalty := 1,
    length_penalty := 1, no_repeat_ngram_size := 2, num_return_sequences := 1,
    vocab_size := 3, bos_token := 0, eos_token := 2 }

/-- An oracle preferring token 1. -/
def c5oracle : List ℕ → ℕ → ℚ := fun _ t => if t = 1 then 5 else 0

/-- A valid sampling-mode configuration. -/
def cSamp : DecodingConfig :=
  { min_length := 2, max_length := 5, do_sample := true, early_stopping := false,
    num_beams := 1, temperature := 1, top_k := 2, top_p := 9/10, repetition_penalty := 1,
    length_penalty := 1, no_repeat_ngram_size := 2, num_return_sequences := 2,
    vocab_size := 4, bos_token := 0, eos_token := 3 }

/-- An oracle whose scores depend on the growing hypothesis. -/
def sampOracle : List ℕ → ℕ → ℚ := fun p t => (t : ℚ) - (p.length : ℚ)

/-- An invalid configuration: `max_length ≤ min_length`. -/
def cexBad : DecodingConfig :=
  { min_length := 5, max_length := 3, do_sample := false, early_stopping := false,
    num_beams := 2, temperature := 1, top_k := 0, top_p := 1, repetition_penalty := 1,
    length_penalty := 1, no_repeat_ngram_size := 0, num_return_sequences := 1,
    vocab_size := 4, bos_token := 0, eos_token := 3 }

/-! ## The claims -/

/-- C1 (amended): every token sequence decoded by the engine has length at most
`max_length`; its length is at least `min_length` unless an all-tokens-banned
step forced an early end-of-sequence token (the DegenerateBeamState rescue of
§7); and the sequence stripped of the leading beginning-of-sequence marker and
any trailing end-of-sequence marker contains no occurrence of the
end-of-sequence token. -/
theorem C1_length_bounds_and_no_eos (c : DecodingConfig) (oracle : List ℕ → ℕ → ℚ)
    (rng : ℕ → ℕ → ℕ) (outs : List (List ℕ)) (seq : List ℕ)
    (hok : decodeHyps c oracle rng = Except.ok outs) (hseq : seq ∈ outs) :
    seq.length ≤ c.max_length ∧
    (c.min_length ≤ seq.length ∨
      (seq.getLast? = some c.eos_token ∧ allBannedB c oracle seq.dropLast = true)) ∧
    ∀ x ∈ stripOutput c seq, x ≠ c.eos_token := by
  rcases decodeHyps_mem hok hseq with ⟨hv, h, rfl, hfin⟩
  exact ⟨hfin.2.1, hfin.2.2.2.2, hfin.2.2.1⟩

/-- Witness for C1 at the degenerate fixture. -/
theorem C1_length_bounds_and_no_eos_witness :
    ([0, 1] : List ℕ).length ≤ cexC1.max_length ∧
    (cexC1.min_length ≤ ([0, 1] : List ℕ).length ∨
      (([0, 1] : List ℕ).getLast? = some cexC1.eos_token ∧
        allBannedB cexC1 zeroOracle ([0, 1] : List ℕ).dropLast = true)) ∧
    ∀ x ∈ stripOutput cexC1 [0, 1], x ≠ cexC1.eos_token :=
  C1_length_bounds_and_no_eos cexC1 zeroOracle rngZero [[0, 1]] [0, 1] rfl
    (by simp)

/-- Counterexample to C1 as stated: under 1-gram blocking plus minimum-length
forcing, every token of the two-token vocabulary is banned at step 1, the
engine forces the end-of-sequence token, and the returned sequence has length
2 < min_length = 4. -/
theorem C1_counterexample :
    decodeHyps cexC1 zeroOracle rngZero = Except.ok [[0, 1]] ∧
    ([0, 1] : List ℕ).length < cexC1.min_length := by
  constructor
  · rfl
  · decide

/-- C2: in beam mode, every `BeamManager` advance preserves the bound
live-hypothesis count + finished-pool count ≤ `num_beams`, and the bound holds
at every step of the decoding loop. -/
theorem C2_beam_count_invariant (c : DecodingConfig) (oracle : List ℕ → ℕ → ℚ)
    (hc : c.validB = true) (_hs : c.do_sample = false) :
    (∀ s : BeamState, s.live.length + s.pool.length ≤ c.num_beams →
      (beamAdvance c oracle s).live.length + (beamAdvance c oracle s).pool.length
        ≤ c.num_beams) ∧
    (∀ n : ℕ, (beamLoop c oracle n (initBeam c)).live.length
        + (beamLoop c oracle n (initBeam c)).pool.length ≤ c.num_beams) :=
  ⟨fun _ h => beamAdvance_count h, fun n => beamLoop_count n _ (initBeam_count hc)⟩

/-- Witness for C2 at a concrete beam run. -/
theorem C2_beam_count_invariant_witness :
    (beamLoop cexC1 zeroOracle 3 (initBeam cexC1)).live.length
      + (beamLoop cexC1 zeroOracle 3 (initBeam cexC1)).pool.length
      ≤ cexC1.num_beams :=
  (C2_beam_count_invariant cexC1 zeroOracle rfl rfl).2 3

/-- C3: the decoding loop terminates within the `max_length` step ceiling in
both modes — fuel beyond `max_length` changes nothing and every hypothesis is
concluded — and in the all-banned degenerate state the engine forces the
end-of-sequence token with its ban-overridden score, so forward progress is
always made and no crash occurs (all transitions are total). -/
theorem C3_termination (c : DecodingConfig) (oracle : List ℕ → ℕ → ℚ)
    (rng : ℕ → ℕ → ℕ) (hc : c.validB = true) :
    (∀ m, beamLoop c oracle (c.max_length + m) (initBeam c) = beamRun c oracle) ∧
    (beamRun c oracle).live = [] ∧
    (∀ m, sampleLoop c oracle rng (c.max_length + m) 0 (initSample c)
      = sampleRun c oracle rng) ∧
    (∀ h ∈ sampleRun c oracle rng, h.finished = true) ∧
    (∀ h : Hypothesis, (forcedChild c oracle h).tokens = h.tokens ++ [c.eos_token] ∧
      (forcedChild c oracle h).finished = true ∧
      (forcedChild c oracle h).cumLogProb = h.cumLogProb +
        preBanScore c h.tokens c.eos_token (oracle h.tokens c.eos_token)) := by
  refine ⟨?_, beamRun_live_empty hc, ?_, sampleRun_allfin hc, ?_⟩
  · intro m
    exact beamLoop_absorb m c.max_length _ (beamRun_live_empty hc)
  · intro m
    exact sampleLoop_absorb m c.max_length 0 _ (sampleRun_allfin hc)
  · intro h
    exact ⟨rfl, rfl, rfl⟩

/-- Witness for C3 at the degenerate fixture: five extra steps of fuel change
nothing. -/
theorem C3_termination_witness :
    beamLoop cexC1 zeroOracle (cexC1.max_length + 5) (initBeam cexC1)
      = beamRun cexC1 zeroOracle :=
  (C3_termination cexC1 zeroOracle rngZero rfl).1 5

/-- C4: a configuration violating a validity constraint (num_return_sequences
exceeding num_beams in beam mode, max_length ≤ min_length, or non-positive
temperature) makes the engine fail eagerly with a configuration error, for
every oracle and random source — no decoding step runs and no output is
produced. -/
theorem C4_configuration_error (c : DecodingConfig) (oracle : List ℕ → ℕ → ℚ)
    (rng : ℕ → ℕ → ℕ)
    (hbad : (c.do_sample = false ∧ c.num_beams < c.num_return_sequences) ∨
      c.max_length ≤ c.min_length ∨ c.temperature ≤ 0) :
    decodeHyps c oracle rng = Except.error DecodeError.configurationError ∧
    decode c oracle rng = Except.error DecodeError.configurationError := by
  have hv : c.validB = false := by
    by_cases h : c.validB = true
    · exfalso
      have hs := validB_spec h
      rcases hbad with ⟨h1, h2⟩ | h2 | h2
      · have := hs.2.2.2.1 h1
        omega
      · have := hs.1
        omega
      · have := hs.2.2.2.2.1
        linarith
    · simpa using h
  constructor
  · unfold decodeHyps
    rw [hv]
    rfl
  · unfold decode decodeHyps
    rw [hv]
    rfl

/-- Witness for C4 at an invalid fixture (`max_length ≤ min_length`). -/
theorem C4_configuration_error_witness :
    decodeHyps cexBad zeroOracle rngZero
        = Except.error DecodeError.configurationError ∧
      decode cexBad zeroOracle rngZero
        = Except.error DecodeError.configurationError :=
  C4_configuration_error cexBad zeroOracle rngZero (Or.inr (Or.inl (by decide)))

/-- C5: with `no_repeat_ngram_size = N > 0`, no output sequence of the engine
contains two occurrences of the same contiguous subsequence of length N — the
n-gram ban of the penalty processor is absolute. -/
theorem C5_no_repeat_ngram (c : DecodingConfig) (oracle : List ℕ → ℕ → ℚ)
    (rng : ℕ → ℕ → ℕ) (outs : List (List ℕ)) (seq : List ℕ)
    (hN : 0 < c.no_repeat_ngram_size)
    (hok : decode c oracle rng = Except.ok outs) (hseq : seq ∈ outs) :
    hasDupNgramB c.no_repeat_ngram_size seq = false := by
  unfold decode at hok
  cases hd : decodeHyps c oracle rng with
  | error e =>
    rw [hd] at hok
    cases hok
  | ok outs0 =>
    rw [hd] at hok
    cases hok
    rcases List.mem_map.1 hseq with ⟨seq0, hm0, rfl⟩
    rcases decodeHyps_mem hd hm0 with ⟨hv, h, rfl, hfin⟩
    rw [hasDupNgramB_eq_false_iff]
    have hdup := hfin.2.2.2.1 hN
    unfold stripOutput
    rw [dropTrailTok_drop_one]
    exact hdup.drop_one

/-- Witness for C5 at a concrete 2-gram-blocked run. -/
theorem C5_no_repeat_ngram_witness :
    hasDupNgramB c5cfg.no_repeat_ngram_size [1, 1, 0, 0] = false :=
  C5_no_repeat_ngram c5cfg c5oracle rngZero [[1, 1, 0, 0]] [1, 1, 0, 0]
    (by decide) rfl (by simp)

/-- C6 (amended): with `num_beams = 1` and `do_sample = false` the engine's
output is exactly strict greedy decoding extended with the same
degenerate-state rescue as the engine (forcing the end-of-sequence token when
every token is banned); without that extension the equality fails in the
all-banned state (see the counterexample). -/
theorem C6_greedy_equivalence (c : DecodingConfig) (oracle : List ℕ → ℕ → ℚ)
    (rng : ℕ → ℕ → ℕ) (hc : c.validB = true) (hB : c.num_beams = 1)
    (hs : c.do_sample = false) :
    decodeHyps c oracle rng = Except.ok [greedyRescued c oracle] := by
  have hnrs : c.num_return_sequences = 1 := by
    have h1 := (validB_spec hc).2.2.1
    have h2 := (validB_spec hc).2.2.2.1 hs
    omega
  unfold decodeHyps
  rw [if_pos hc, hs, if_neg (by simp : ¬ (false = true))]
  congr 1
  unfold beamOutHyps beamRun greedyRescued
  rw [hnrs]
  by_cases hf : (initHyp c).finished = true
  · have hd : decide (c.max_length ≤ 1) = true := hf
    unfold initBeam
    rw [if_pos hf, beamLoop_pool_only, topN_single, hd, greedyLoopWith_fin]
    rfl
  · have hd : decide (c.max_length ≤ 1) = false := by
      have : (initHyp c).finished = decide (c.max_length ≤ 1) := rfl
      rw [← this]
      simpa using hf
    unfold initBeam
    rw [if_neg hf]
    have hinit : initHyp c = ⟨[c.bos_token], 0, false⟩ := by
      unfold initHyp
      rw [hd]
    rw [hinit]
    have hmax : 1 < c.max_length := by
      have := of_decide_eq_false hd
      omega
    have hg := @beamLoop_b1_greedy c oracle hc hB c.max_length [c.bos_token] 0
      (by simp) (by simpa using hmax) (by simp only [List.length_singleton]; omega)
    rcases map_tokens_singleton hg.1 with ⟨h1, hpool, htok⟩
    rw [hpool, topN_single, hd]
    simp [htok]

/-- Witness for C6 at the minimum-length scenario fixture. -/
theorem C6_greedy_equivalence_witness :
    decodeHyps c8cfg c8oracle rngZero = Except.ok [greedyRescued c8cfg c8oracle] :=
  C6_greedy_equivalence c8cfg c8oracle rngZero rfl rfl rfl

/-- Counterexample to C6 as stated: at the degenerate fixture the engine forces
the end-of-sequence token and returns [0, 1], while the naive greedy reference
of the claim (argmax of the adjusted log-probabilities with ties to the lower
token id, no rescue) keeps appending the banned token 0 and produces
[0, 0, 0, 0, 1]. -/
theorem C6_counterexample :
    decodeHyps cexC1 zeroOracle rngZero = Except.ok [[0, 1]] ∧
    greedyNaive cexC1 zeroOracle = [0, 0, 0, 0, 1] ∧
    ([0, 1] : List ℕ) ≠ [0, 0, 0, 0, 1] := by
  refine ⟨rfl, rfl, ?_⟩
  decide

/-- C7: sampling-mode determinism — the engine's output depends on the random
source only through the draws taken at steps below `max_length`, so the output
is a function of (input, configuration, seed) alone and two runs with the same
seeded source are byte-identical. -/
theorem C7_sampling_determinism (c : DecodingConfig) (oracle : List ℕ → ℕ → ℚ)
    (r1 r2 : ℕ → ℕ → ℕ)
    (hr : ∀ t j, t < c.max_length → r1 t j = r2 t j) :
    decodeHyps c oracle r1 = decodeHyps c oracle r2 ∧
    decode c oracle r1 = decode c oracle r2 := by
  have hmain : decodeHyps c oracle r1 = decodeHyps c oracle r2 := by
    unfold decodeHyps
    by_cases hv : c.validB = true
    · rw [if_pos hv, if_pos hv]
      by_cases hsample : c.do_sample = true
      · rw [if_pos hsample, if_pos hsample]
        unfold sampleRun
        rw [sampleLoop_congr c.max_length 0 _ (fun t' j h1 h2 => hr t' j (by omega))]
      · rw [if_neg hsample, if_neg hsample]
    · rw [if_neg hv, if_neg hv]
  refine ⟨hmain, ?_⟩
  unfold decode
  rw [hmain]

/-- Witness for C7: two runs from the same seeded random source coincide. -/
theorem C7_sampling_determinism_witness :
    decodeHyps cSamp sampOracle (streamOfSeed 42)
        = decodeHyps cSamp sampOracle (streamOfSeed 42) ∧
      decode cSamp sampOracle (streamOfSeed 42)
        = decode cSamp sampOracle (streamOfSeed 42) :=
  C7_sampling_determinism cSamp sampOracle (streamOfSeed 42) (streamOfSeed 42)
    (fun _ _ _ => rfl)

/-- C8 (amended): while a hypothesis is shorter than `min_length` the penalty
processor pins the end-of-sequence token's adjusted log-probability to ⊥ and
the end-of-sequence token is never a viable continuation — it can be selected
early only by the all-banned rescue (see the counterexample); in the concrete
scenario of the spec (min_length = 3, end-of-sequence id 7 with maximal raw
log-probability at every step) the engine bans it at steps 1 and 2, admits it
from step 3, and returns [0, 1, 1, 7], of length 4 ≥ 3. -/
theorem C8_min_length_enforcement (c : DecodingConfig) (oracle : List ℕ → ℕ → ℚ)
    (tokens : List ℕ) (p : ℕ × ℚ) (hlen : tokens.length < c.min_length) :
    adjustedScore c oracle tokens c.eos_token = ⊥ ∧
    (p ∈ viableCands c oracle tokens → p.1 ≠ c.eos_token) ∧
    decodeHyps c8cfg c8oracle rngZero = Except.ok [[0, 1, 1, 7]] := by
  refine ⟨?_, ?_, rfl⟩
  · rw [adjustedScore_eq_bot_iff]
    unfold isBannedTok
    simp [hlen]
  · intro hp heq
    have hban := (viableCands_mem hp).2.1
    unfold isBannedTok at hban
    rw [heq] at hban
    simp [hlen] at hban

/-- Witness for C8: the end-of-sequence token of the scenario fixture is banned
for the length-2 hypothesis [0, 1]. -/
theorem C8_min_length_enforcement_witness :
    adjustedScore c8cfg c8oracle [0, 1] c8cfg.eos_token = ⊥ ∧
    ((7, (10 : ℚ)) ∈ viableCands c8cfg c8oracle [0, 1] → (7, (10 : ℚ)).1 ≠ c8cfg.eos_token) ∧
    decodeHyps c8cfg c8oracle rngZero = Except.ok [[0, 1, 1, 7]] :=
  C8_min_length_enforcement c8cfg c8oracle [0, 1] (7, 10) (by decide)

/-- Counterexample to C8 as stated: at the degenerate fixture every token is
banned at step 1, the rescue appends the end-of-sequence token to the length-1
hypothesis [0], i.e. the end-of-sequence token is selected while the
hypothesis is still shorter than min_length = 4. -/
theorem C8_counterexample :
    decodeHyps cexC1 zeroOracle rngZero = Except.ok [[0, 1]] ∧
    ([0, 1] : List ℕ).getLast? = some cexC1.eos_token ∧
    ([0, 1] : List ℕ).dropLast.length < cexC1.min_length := by
  refine ⟨rfl, rfl, ?_⟩
  decide

/-- C9: `TranslationModel::new` copies every decoding-relevant field of the
`TranslationConfig` — the four resources, min_length, max_length, do_sample,
early_stopping, num_beams, temperature, top_k, top_p, repetition_penalty,
length_penalty, no_repeat_ngram_size, num_return_sequences and device —
unchanged into the `GenerateConfig` handed to `MarianGenerator::new`, never
overriding, clamping or validating any of them, and propagates any failure of
the collaborator to the caller unchanged. -/
theorem C9_translation_passthrough {G E : Type}
    (f : RustBert.GenerateConfig → Except E G) (tc : RustBert.TranslationConfig) :
    ((RustBert.TranslationModel.generateConfigOf tc).model_resource
        = tc.model_resource ∧
      (RustBert.TranslationModel.generateConfigOf tc).config_resource
        = tc.config_resource ∧
      (RustBert.TranslationModel.generateConfigOf tc).merges_resource
        = tc.merges_resource ∧
      (RustBert.TranslationModel.generateConfigOf tc).vocab_resource
        = tc.vocab_resource ∧
      (RustBert.TranslationModel.generateConfigOf tc).min_length = tc.min_length ∧
      (RustBert.TranslationModel.generateConfigOf tc).max_length = tc.max_length ∧
      (RustBert.TranslationModel.generateConfigOf tc).do_sample = tc.do_sample ∧
      (RustBert.TranslationModel.generateConfigOf tc).early_stopping
        = tc.early_stopping ∧
      (RustBert.TranslationModel.generateConfigOf tc).num_beams = tc.num_beams ∧
      (RustBert.TranslationModel.generateConfigOf tc).temperature = tc.temperature ∧
      (RustBert.TranslationModel.generateConfigOf tc).top_k = tc.top_k ∧
      (RustBert.TranslationModel.generateConfigOf tc).top_p = tc.top_p ∧
      (RustBert.TranslationModel.generateConfigOf tc).repetition_penalty
        = tc.repetition_penalty ∧
      (RustBert.TranslationModel.generateConfigOf tc).length_penalty
        = tc.length_penalty ∧
      (RustBert.TranslationModel.generateConfigOf tc).no_repeat_ngram_size
        = tc.no_repeat_ngram_size ∧
      (RustBert.TranslationModel.generateConfigOf tc).num_return_sequences
        = tc.num_return_sequences ∧
      (RustBert.TranslationModel.generateConfigOf tc).device = tc.device) ∧
    (∀ e : E, f (RustBert.TranslationModel.generateConfigOf tc) = Except.error e →
      RustBert.TranslationModel.new f tc = Except.error e) ∧
    (∀ g : G, f (RustBert.TranslationModel.generateConfigOf tc) = Except.ok g →
      RustBert.TranslationModel.new f tc = Except.ok ⟨g⟩) := by
  refine ⟨⟨rfl, rfl, rfl, rfl, rfl, rfl, rfl, rfl, rfl, rfl, rfl, rfl, rfl, rfl,
    rfl, rfl, rfl⟩, ?_, ?_⟩
  · intro e he
    unfold RustBert.TranslationModel.new
    rw [he]
  · intro g hg
    unfold RustBert.TranslationModel.new
    rw [hg]

/-- Witness for C9: a collaborator that always fails has its error surfaced
unchanged. -/
theorem C9_translation_passthrough_witness :
    RustBert.TranslationModel.new
        (fun _ => (Except.error 0 : Except ℕ Unit))
        (RustBert.TranslationConfig.new RustBert.Language.EnglishToFrench
          RustBert.Device.Cpu)
      = Except.error 0 :=
  (C9_translation_passthrough (fun _ => (Except.error 0 : Except ℕ Unit))
    (RustBert.TranslationConfig.new RustBert.Language.EnglishToFrench
      RustBert.Device.Cpu)).2.1 0 rfl

/-- C10: both `TranslationConfig` constructors produce the same constant
decoding parameters regardless of their arguments: min_length 0, max_length
512, do_sample false, early_stopping false, num_beams 6, temperature 1.0,
top_k 50, top_p 1.0, repetition_penalty 1.0, length_penalty 1.0,
no_repeat_ngram_size 0, num_return_sequences 1. -/
theorem C10_constructor_defaults (language : RustBert.Language)
    (d1 d2 : RustBert.Device) (m c v s : RustBert.Resource) :
    ((RustBert.TranslationConfig.new language d1).min_length = 0 ∧
      (RustBert.TranslationConfig.new language d1).max_length = 512 ∧
      (RustBert.TranslationConfig.new language d1).do_sample = false ∧
      (RustBert.TranslationConfig.new language d1).early_stopping = false ∧
      (RustBert.TranslationConfig.new language d1).num_beams = 6 ∧
      (RustBert.TranslationConfig.new language d1).temperature = 1 ∧
      (RustBert.TranslationConfig.new language d1).top_k = 50 ∧
      (RustBert.TranslationConfig.new language d1).top_p = 1 ∧
      (RustBert.TranslationConfig.new language d1).repetition_penalty = 1 ∧
      (RustBert.TranslationConfig.new language d1).length_penalty = 1 ∧
      (RustBert.TranslationConfig.new language d1).no_repeat_ngram_size = 0 ∧
      (RustBert.TranslationConfig.new language d1).num_return_sequences = 1 ∧
      (RustBert.TranslationConfig.new language d1).device = d1) ∧
    ((RustBert.TranslationConfig.new_from_resources m c v s d2).min_length = 0 ∧
      (RustBert.TranslationConfig.new_from_resources m c v s d2).max_length = 512 ∧
      (RustBert.TranslationConfig.new_from_resources m c v s d2).do_sample = false ∧
      (RustBert.TranslationConfig.new_from_resources m c v s d2).early_stopping
        = false ∧
      (RustBert.TranslationConfig.new_from_resources m c v s d2).num_beams = 6 ∧
      (RustBert.TranslationConfig.new_from_resources m c v s d2).temperature = 1 ∧
      (RustBert.TranslationConfig.new_from_resources m c v s d2).top_k = 50 ∧
      (RustBert.TranslationConfig.new_from_resources m c v s d2).top_p = 1 ∧
      (RustBert.TranslationConfig.new_from_resources m c v s d2).repetition_penalty
        = 1 ∧
      (RustBert.TranslationConfig.new_from_resources m c v s d2).length_penalty
        = 1 ∧
      (RustBert.TranslationConfig.new_from_resources m c v s d2).no_repeat_ngram_size
        = 0 ∧
      (RustBert.TranslationConfig.new_from_resources m c v s d2).num_return_sequences
        = 1 ∧
      (RustBert.TranslationConfig.new_from_resources m c v s d2).device = d2) := by
  cases language <;>
    exact ⟨⟨rfl, rfl, rfl, rfl, rfl, rfl, rfl, rfl, rfl, rfl, rfl, rfl, rfl⟩,
      ⟨rfl, rfl, rfl, rfl, rfl, rfl, rfl, rfl, rfl, rfl, rfl, rfl, rfl⟩⟩
